import Mathlib

/-!
Verification development for the LES/eMAP viewer core.

This file shallowly embeds the two parsers (`les_parser.py`, `xml_parser.py`),
the panel/image naming pass (`les_parser_panel_image.py`) and the XML
draw/bounds walks (`VIEWER_TRY_8/canvas/xml_drawing.py`,
`canvas/viewer_canvas_core.py`) and proves or refutes the frozen claims about
them.  LES-side arithmetic (the Python floats fed through `float()`/`int()`)
is modelled over `ℚ`; the XML geometry, which uses `math.cos`/`math.sin`, is
modelled over `ℝ`.  Python exceptions that escape a constructor are modelled
with `Except Unit`; exceptions caught locally are modelled with `Option`
fallbacks, exactly where the source has a `try`/`except`.
-/

namespace Viewer

/-! ## Character-list utilities (Python `str` helpers)

Python strings are modelled as `List Char`.  The helpers below mirror the
exact `str` methods the parser uses: `strip`, `split`, `split(sep, 1)`,
`rstrip(',')`, `startswith`, containment and `find`.
-/

/-- Python `str.strip()` (whitespace on both ends). -/
def trimC (l : List Char) : List Char :=
  ((l.dropWhile Char.isWhitespace).reverse.dropWhile Char.isWhitespace).reverse

/-- Python `str.split(sep)` for a one-character separator: keeps empty parts. -/
def splitOnC (sep : Char) : List Char → List (List Char)
  | [] => [[]]
  | c :: cs =>
    match splitOnC sep cs with
    | [] => [[c]]
    | h :: t => if c = sep then [] :: h :: t else (c :: h) :: t

/-- Python `str.split(sep, 1)`: the part before the first separator, and
(optionally) the part after it. -/
def splitFirstC (sep : Char) : List Char → List Char × Option (List Char)
  | [] => ([], none)
  | c :: cs =>
    if c = sep then ([], some cs)
    else
      let r := splitFirstC sep cs
      (c :: r.1, r.2)

/-- Python `str.rstrip(',')`. -/
def dropTrailingCommas (l : List Char) : List Char :=
  (l.reverse.dropWhile (· = ',')).reverse

/-- Python `str.startswith(p)`. -/
def leadsWith : List Char → List Char → Bool
  | [], _ => true
  | _, [] => false
  | p :: ps, c :: cs => p = c && leadsWith ps cs

/-- Python `sub in s` (substring containment). -/
def hasSub (pat : List Char) : List Char → Bool
  | [] => leadsWith pat []
  | c :: cs => leadsWith pat (c :: cs) || hasSub pat cs

/-- Python `s.find(ch, start)`: absolute index of the first occurrence of `ch`
at position `≥ start`, or `none`. -/
def findFromC (l : List Char) (ch : Char) (start : Nat) : Option Nat :=
  match (l.drop start).findIdx? (· = ch) with
  | some k => some (start + k)
  | none => none

/-- Python slice `s[a:b]`. -/
def sliceC (l : List Char) (a b : Nat) : List Char :=
  (l.drop a).take (b - a)

/-- Python `line.strip('[]').strip()`. -/
def stripBrackets (l : List Char) : List Char :=
  trimC (((l.dropWhile fun c => c = '[' ∨ c = ']').reverse.dropWhile
    fun c => c = '[' ∨ c = ']').reverse)

/-! ## Numeric parsing (`int()` / `float()` / `str.isdigit`) -/

/-- Value of a run of decimal digits. -/
def digitsToNat (l : List Char) : Nat :=
  l.foldl (fun a c => a * 10 + (c.toNat - 48)) 0

/-- Python `s.isdigit()`: nonempty and all decimal digits. -/
def isDigits (l : List Char) : Bool :=
  !l.isEmpty && l.all Char.isDigit

/-- Python `int(s)`: optional surrounding whitespace, optional sign, then a
nonempty run of digits; anything else raises (here: `none`). -/
def parseIntC (l : List Char) : Option Int :=
  let t := trimC l
  let signed : Int × List Char :=
    match t with
    | '-' :: r => (-1, r)
    | '+' :: r => (1, r)
    | r => (1, r)
  if isDigits signed.2 then some (signed.1 * digitsToNat signed.2) else none

/-- Python `float(s)` restricted to the plain decimal forms the LES format
uses: optional whitespace and sign, digits with an optional single `.`
(exponent forms and `inf`/`nan` are not modelled; no claim input uses them).
Anything else raises (here: `none`). -/
def parseFloatC (l : List Char) : Option ℚ :=
  let t := trimC l
  let signed : ℚ × List Char :=
    match t with
    | '-' :: r => (-1, r)
    | '+' :: r => (1, r)
    | r => (1, r)
  let ip := signed.2.takeWhile Char.isDigit
  let rest := signed.2.drop ip.length
  match rest with
  | [] => if ip.isEmpty then none else some (signed.1 * digitsToNat ip)
  | '.' :: fp =>
    if fp.all Char.isDigit ∧ (!ip.isEmpty ∨ !fp.isEmpty) then
      some (signed.1 * ((digitsToNat ip : ℚ) + (digitsToNat fp : ℚ) / (10 : ℚ) ^ fp.length))
    else none
  | _ => none

/-- `Option` to `Except Unit`: an uncaught Python exception. -/
def exceptOf {α : Type} : Option α → Except Unit α
  | some a => .ok a
  | none => .error ()

/-! ## LES data model (`les_parser.py`) -/

/-- `Aperture.ApertureMode`. -/
inductive ApertureMode where
  | T | O | K | U | F
  deriving DecidableEq, Repr

/-- `Aperture`, with the numeric fields over `ℚ`. -/
structure Aperture where
  index : Int
  mode : ApertureMode
  radius : ℚ
  inner_radius : ℚ
  outer_radius : ℚ
  width : ℚ
  height : ℚ
  angle : ℚ
  deriving DecidableEq, Repr

/-- The field defaults `Aperture.__init__` assigns before examining `content`. -/
def Aperture.blank : Aperture :=
  { index := 0, mode := .T, radius := 10, inner_radius := 0, outer_radius := 0,
    width := 0, height := 0, angle := 0 }

/-- First character to shape code; unknown codes fall back to `T`
(the `except KeyError` branch). -/
def apModeOf (c : Char) : ApertureMode :=
  if c = 'T' then .T else if c = 'O' then .O else if c = 'K' then .K
  else if c = 'U' then .U else if c = 'F' then .F else .T

/-- `Aperture.__init__(content)`.  The `float()` calls for the round radius,
rectangular width/height and annular radii are *not* guarded in the source, so
a failing parse raises out of the constructor (`Except.error`); only the
rectangular `angle` field has a local `try`/`except ValueError`. -/
def apertureDecode (content : List Char) : Except Unit Aperture :=
  match content with
  | [] => .ok Aperture.blank
  | h :: _ => do
    let mode := apModeOf h
    let parts := splitOnC ':' content
    let p0 := parts.headD []
    let index : Int ←
      if p0.length > 1 then exceptOf (parseIntC (p0.drop 1)) else pure 0
    let base := { Aperture.blank with index := index, mode := mode }
    match mode with
    | .T =>
      if parts.length > 1 then do
        let v ← exceptOf (parseFloatC (parts.getD 1 []))
        pure { base with radius := v / 2 }
      else pure { base with radius := 10 }
    | .O =>
      if parts.length ≥ 3 then do
        let w ← exceptOf (parseFloatC (parts.getD 1 []))
        let hgt ← exceptOf (parseFloatC (parts.getD 2 []))
        let angle : ℚ :=
          if parts.length ≥ 4 then (parseFloatC (parts.getD 3 [])).getD 0 else 0
        pure { base with width := w, height := hgt, angle := angle }
      else
        pure { base with angle :=
          if parts.length ≥ 4 then (parseFloatC (parts.getD 3 [])).getD 0 else 0 }
    | .K =>
      if parts.length ≥ 3 then do
        let inr ← exceptOf (parseFloatC (parts.getD 1 []))
        let outr ← exceptOf (parseFloatC (parts.getD 2 []))
        pure { base with inner_radius := inr / 2, outer_radius := outr / 2 }
      else pure base
    | .U => pure base
    | .F => pure base

/-- `Les._apply_scale_to_aperture`. -/
def applyScaleAp (s : ℚ) (ap : Aperture) : Aperture :=
  { ap with
    radius := ap.radius * s
    inner_radius := ap.inner_radius * s
    outer_radius := ap.outer_radius * s
    width := ap.width * s
    height := ap.height * s }

/-- The scalar fields of `Net` (its `points` list lives in `NetRec`; a
`Point` holds this immutable part of its net, which is faithful because
`index`/`image`/`is_plain` are never mutated after `Net.__init__`). -/
structure NetData where
  index : Int
  image : Int
  is_plain : Bool
  deriving DecidableEq, Repr

/-- `Net()` with no content. -/
def NetData.blank : NetData := { index := 0, image := 1, is_plain := false }

/-- `Net.__init__(content)` (total: every conversion is guarded). -/
def netDecode (content : List Char) : NetData :=
  if content.isEmpty then NetData.blank
  else
    let hasP := content.contains 'P'
    let c1 := if hasP then content.filter (· ≠ 'P') else content
    let parts := splitOnC 'C' c1
    let idxPart := trimC ((parts.headD []).filter (· ≠ '@'))
    let digits := idxPart.takeWhile Char.isDigit
    let index : Int := if digits.isEmpty then 0 else digitsToNat digits
    let image : Int :=
      if parts.length > 1 ∧ isDigits (parts.getD 1 []) then digitsToNat (parts.getD 1 [])
      else 1
    { index := index, image := image, is_plain := hasP }

/-- `LesStep`. -/
structure LesStep where
  amount : Int
  operations : List Char
  offset_x : ℚ
  offset_y : ℚ
  distance_x : ℚ
  distance_y : ℚ
  image : Int
  tooltip : List Char
  deriving DecidableEq, Repr

/-- `LesStep.__init__(content)`.  `amount` and `image` are guarded with
`try`/`except`; the `float()` calls on the offset and distance pairs are not,
so they can raise out of the constructor. -/
def lesStepDecode (content : List Char) : Except Unit LesStep := do
  let parts := splitOnC ':' content
  if parts.length < 5 then
    return { amount := 0, operations := [], offset_x := 0, offset_y := 0,
             distance_x := 0, distance_y := 0, image := 1, tooltip := content }
  let amount : Int := (parseIntC (parts.getD 1 [])).getD 0
  let ops := parts.getD 2 []
  let off := splitOnC ',' (parts.getD 3 [])
  let offxy : ℚ × ℚ ←
    if off.length ≥ 2 then do
      let a ← exceptOf (parseFloatC (off.getD 0 []))
      let b ← exceptOf (parseFloatC (off.getD 1 []))
      pure (a, b)
    else pure (0, 0)
  let dist := splitOnC ',' (parts.getD 4 [])
  let distxy : ℚ × ℚ ←
    if dist.length ≥ 2 then do
      let a ← exceptOf (parseFloatC (dist.getD 0 []))
      let b ← exceptOf (parseFloatC (dist.getD 1 []))
      pure (a, b)
    else pure (0, 0)
  let image : Int :=
    if parts.length > 5 ∧ (parts.getD 5 []).contains 'I' then
      (parseIntC ((parts.getD 5 []).filter (· ≠ 'I'))).getD 1
    else 1
  pure { amount := amount, operations := ops, offset_x := offxy.1, offset_y := offxy.2,
         distance_x := distxy.1, distance_y := distxy.2, image := image, tooltip := content }

/-- `LesStep.scale_values`. -/
def LesStep.scaleValues (st : LesStep) (s : ℚ) : LesStep :=
  { st with
    offset_x := st.offset_x * s
    offset_y := st.offset_y * s
    distance_x := st.distance_x * s
    distance_y := st.distance_y * s }

/-! ## Point model (`les_parser.py`, class `Point`) -/

/-- `Point.PointType`. -/
inductive PointType where
  | NONE | S | D | B | P | E
  deriving DecidableEq, Repr

/-- `Point.PointStyle`. -/
inductive PointStyle where
  | NORMAL | GLOBAL | LOCAL
  deriving DecidableEq, Repr

/-- `Point.PointType[c]` with the `except` fallback to `NONE`. -/
def pointTypeOf (c : Char) : PointType :=
  if c = 'S' then .S else if c = 'D' then .D else if c = 'B' then .B
  else if c = 'P' then .P else if c = 'E' then .E else .NONE

/-- `Point`.  Colours are kept; the presentation-only fields
(`index_of_map`, opacities, `is_selected`, `is_visible`) are omitted — no
claim or parsing decision reads them.  `panel_image_name` is an attribute the
naming pass adds dynamically in Python, hence `Option`. -/
structure Point where
  original : List Char
  identifier : Int
  x : ℚ
  y : ℚ
  type : PointType
  style : PointStyle
  aperture : Aperture
  content : List Char
  net : NetData
  layer : Int
  count_of_layer : Int
  fill_color : Nat × Nat × Nat
  background_color : Nat × Nat × Nat
  logic_mode : Bool
  is_enable : Bool
  is_test : Bool
  image : Int
  panel_image_name : Option String
  deriving DecidableEq, Repr

/-- The state `Point.__init__` establishes before dispatching on style. -/
def Point.base (original : List Char) (cnt : Int) (nd : NetData)
    (style : PointStyle) : Point :=
  { original := original, identifier := 0, x := 0, y := 0, type := .NONE
    style := style, aperture := Aperture.blank, content := [], net := nd
    layer := 1, count_of_layer := cnt, fill_color := (255, 215, 0)
    background_color := (0, 100, 0), logic_mode := false, is_enable := true
    is_test := true, image := 1, panel_image_name := none }

/-- The cleanup chain
`content.replace('[','').replace(']','').replace('*','').replace('/','')
.replace('~','').replace('&M','').replace('&S','').replace(' ','')
.replace(',','')` (single-character replaces are filters; the two-character
replaces scan left-to-right without overlap, as Python `str.replace` does). -/
def removePairC (a b : Char) : List Char → List Char
  | [] => []
  | [c] => [c]
  | c :: d :: rest =>
    if c = a ∧ d = b then removePairC a b rest else c :: removePairC a b (d :: rest)

def cleanContent (l : List Char) : List Char :=
  let l1 := l.filter fun c => !(c = '[' ∨ c = ']' ∨ c = '*' ∨ c = '/' ∨ c = '~')
  let l2 := removePairC '&' 'S' (removePairC '&' 'M' l1)
  l2.filter fun c => !(c = ' ' ∨ c = ',')

/-- `Point._init_tooling_hole`.  Every numeric conversion is locally guarded
in the source, so this path is total.  `count_of_layer` is the constructor
argument (the parser leaves it at its default `1` for tooling lines). -/
def mkToolingPoint (content : List Char) (cnt : Int) (apertures : List Aperture)
    (style : PointStyle) : Point :=
  let lead := trimC (splitFirstC ',' content).1
  let apMode := if lead = ['F'] then ApertureMode.F else ApertureMode.K
  let clean := cleanContent content
  let iParts := splitOnC 'I' clean
  let cont := iParts.headD []
  let image : Int :=
    if style = .GLOBAL then 0
    else if iParts.length > 1 ∧ isDigits (iParts.getD 1 []) then
      digitsToNat (iParts.getD 1 [])
    else 1
  let xyr : ℚ × ℚ × ℚ :=
    if cont.contains 'X' ∧ cont.contains 'Y' then
      let xStart := (findFromC cont 'X' 0).getD 0 + 1
      let xEnd := (findFromC cont 'Y' 0).getD 0
      let xv := (parseFloatC (sliceC cont xStart xEnd)).getD 0
      let yStart := xEnd + 1
      match findFromC cont 'T' yStart with
      | some t =>
        if 0 < t then
          let yv := (parseFloatC (sliceC cont yStart t)).getD 0
          let radius : ℚ :=
            match parseIntC (cont.drop (t + 1)) with
            | none => Aperture.blank.radius
            | some apIdx =>
              match apertures.find? fun a => decide (a.index = apIdx) with
              | some ap =>
                if apMode = .F then ap.radius
                else if ap.outer_radius ≠ 0 then ap.outer_radius else ap.radius
              | none => Aperture.blank.radius
          (xv, yv, radius)
        else
          let yv := (parseFloatC (cont.drop yStart)).getD 0
          (xv, yv, if Aperture.blank.radius = 0 then 10 else Aperture.blank.radius)
      | none =>
        let yv := (parseFloatC (cont.drop yStart)).getD 0
        (xv, yv, if Aperture.blank.radius = 0 then 10 else Aperture.blank.radius)
    else (0, 0, 10)
  { Point.base content cnt NetData.blank style with
    x := xyr.1
    y := xyr.2.1
    aperture := { Aperture.blank with mode := apMode, radius := xyr.2.2 }
    content := cont
    image := image
    is_test := false
    is_enable := false
    layer := 1
    type := .NONE
    fill_color := (148, 0, 211)
    background_color := (0, 100, 0) }

/-- `Point._init_regular_point`.  Every numeric conversion is wrapped in a
`try`/`except` in the source (the whole `A`-section decode shares one outer
`except Exception: pass`), so this path is total. -/
def mkRegularPoint (content : List Char) (cnt : Int) (apertures : List Aperture)
    (nd : NetData) : Point :=
  let clean := cleanContent content
  let identifier : Int :=
    if leadsWith ['I'] clean ∧ clean.contains 'X' then
      let idPart := ((splitOnC 'X' clean).headD []).dropWhile (· = 'I')
      if !idPart.isEmpty then (parseIntC idPart).getD 0 else 0
    else 0
  let base :=
    { Point.base content cnt nd .NORMAL with
      image := nd.image, content := clean, identifier := identifier }
  if clean.contains 'X' ∧ clean.contains 'Y' then
    let xParts := splitOnC 'X' ((splitOnC 'Y' clean).headD [])
    let xv : ℚ := if xParts.length > 1 then (parseFloatC (xParts.getD 1 [])).getD 0 else 0
    let yParts := splitOnC 'Y' ((splitOnC 'A' clean).headD [])
    let yv : ℚ := if yParts.length > 1 then (parseFloatC (yParts.getD 1 [])).getD 0 else 0
    let atl : Aperture × PointType × Bool :=
      if clean.contains 'A' then
        let aParts := splitOnC 'A' clean
        if aParts.length > 1 then
          let s1 := (splitOnC 'Z' (aParts.getD 1 [])).headD []
          let s2 := (splitOnC 'V' s1).headD []
          let apPart := (splitOnC 'M' s2).headD []
          let logic := apPart.contains 'L'
          match (if logic then parseIntC (apPart.drop 3) else parseIntC (apPart.drop 2)) with
          | none => (Aperture.blank, .NONE, logic)
          | some apIdx =>
            match (if logic then apPart[1]? else apPart[0]?) with
            | none => (Aperture.blank, .NONE, logic)
            | some tc =>
              let ap := (apertures.find? fun a => decide (a.index = apIdx)).getD Aperture.blank
              (ap, pointTypeOf tc, logic)
        else (Aperture.blank, .NONE, false)
      else (Aperture.blank, .NONE, false)
    let layer : Int :=
      if clean.contains 'V' then
        let vParts := splitOnC 'V' clean
        if vParts.length > 1 then
          let v1 := vParts.getD 1 []
          let layerPart := if v1.contains 'N' then (splitOnC 'N' v1).headD [] else v1
          if !layerPart.isEmpty then (parseIntC layerPart).getD 1 else 1
        else 1
      else 1
    let isEnable : Bool := layer = 1 ∨ layer = cnt
    let isTest : Bool := !content.contains '*'
    let fill : Nat × Nat × Nat :=
      if layer = 1 then (if isTest then (255, 215, 0) else (184, 134, 11))
      else if layer = cnt ∧ cnt > 1 then (if isTest then (0, 255, 0) else (0, 128, 0))
      else (if isTest then (0, 255, 255) else (70, 130, 180))
    { base with
      x := xv
      y := yv
      aperture := atl.1
      type := atl.2.1
      logic_mode := atl.2.2
      layer := layer
      is_enable := isEnable
      is_test := isTest
      fill_color := fill
      background_color := (0, 100, 0) }
  else base

/-- `Point.__init__` dispatch: empty content keeps the defaults; an explicit
`GLOBAL`/`LOCAL` style selects the tooling path; otherwise the regular path
(with `net or Net()` and `style or NORMAL`). -/
def mkPoint (content : List Char) (cnt : Int) (apertures : List Aperture)
    (netOpt : Option NetData) (styleOpt : Option PointStyle) : Point :=
  let nd := netOpt.getD NetData.blank
  if content.isEmpty then Point.base content cnt nd ((styleOpt).getD .NORMAL)
  else
    match styleOpt with
    | some s =>
      if s = .GLOBAL ∨ s = .LOCAL then mkToolingPoint content cnt apertures s
      else mkRegularPoint content cnt apertures nd
    | none => mkRegularPoint content cnt apertures nd

/-! ## LES document state (`les_parser.py`, class `Les` and `ViewImage`) -/

/-- `ViewImage` (running per-image bounding box). -/
structure ViewImage where
  min_x : ℚ
  min_y : ℚ
  max_x : ℚ
  max_y : ℚ
  initial : Bool
  deriving DecidableEq, Repr

/-- `ViewImage()`. -/
def ViewImage.blank : ViewImage :=
  { min_x := 0, min_y := 0, max_x := 0, max_y := 0, initial := true }

/-- `ViewImage.set_size`. -/
def ViewImage.setSize (v : ViewImage) (p : Point) : ViewImage :=
  if v.initial then
    { min_x := p.x, min_y := p.y, max_x := p.x, max_y := p.y, initial := false }
  else
    { min_x := min p.x v.min_x, min_y := min p.y v.min_y
      max_x := max p.x v.max_x, max_y := max p.y v.max_y, initial := false }

/-- A `Net` object: its scalar data plus its owned point list. -/
structure NetRec where
  data : NetData
  points : List Point
  deriving DecidableEq, Repr

/-- The mutable state of `Les` during `load_file` (plus the two loop-local
variables `index_of_step` — `∞` modelled as `none` — and
`current_outline_segment`). -/
structure LesState where
  test : List Char
  count_of_layer : Int
  unit : List Char
  scale : ℚ
  nets : List NetRec
  points : List Point
  apertures : List Aperture
  steps : List LesStep
  outline_points : List (List (ℚ × ℚ))
  images : List (Option ViewImage)
  index_of_step : Option Nat
  current_segment : List (ℚ × ℚ)
  deriving DecidableEq, Repr

/-- `Les.__init__` state (before any line): `images = [None, ViewImage()]`. -/
def LesState.init : LesState :=
  { test := [], count_of_layer := 0, unit := [], scale := 1, nets := []
    points := [], apertures := [], steps := [], outline_points := []
    images := [none, some ViewImage.blank], index_of_step := none
    current_segment := [] }

/-! ### Line-classification patterns (the compiled regexes of `Les.__init__`) -/

/-- `^L\s*(\d+)\s*\*?$` — returns the captured layer count. -/
def layerMatch (l : List Char) : Option Nat :=
  match l with
  | 'L' :: rest =>
    let r1 := rest.dropWhile Char.isWhitespace
    let ds := r1.takeWhile Char.isDigit
    if ds.isEmpty then none
    else
      match (r1.drop ds.length).dropWhile Char.isWhitespace with
      | [] => some (digitsToNat ds)
      | ['*'] => some (digitsToNat ds)
      | _ => none
  | _ => none

/-- `^[FTOKU][0-9]+:` (a prefix match). -/
def aperturePat (l : List Char) : Bool :=
  match l with
  | h :: rest =>
    (h = 'F' ∨ h = 'T' ∨ h = 'O' ∨ h = 'K' ∨ h = 'U') &&
      (let ds := rest.takeWhile Char.isDigit
       !ds.isEmpty && (rest.drop ds.length).headD ' ' = ':')
  | [] => false

/-- `^STEP:.*$`. -/
def stepPat (l : List Char) : Bool :=
  leadsWith ['S', 'T', 'E', 'P', ':'] l

/-- `^F,X.*$`. -/
def toolingPat (l : List Char) : Bool :=
  leadsWith ['F', ',', 'X'] l

/-- Consume `-?\d+`: `some rest` iff the front matches. -/
def chompSignedDigits (l : List Char) : Option (List Char) :=
  let l1 := match l with | '-' :: r => r | r => r
  let ds := l1.takeWhile Char.isDigit
  if ds.isEmpty then none else some (l1.drop ds.length)

/-- `^K,X-?\d+Y-?\d+(?:,)?(?:T\d+)?(?:,)?$`. -/
def outlinePat (l : List Char) : Bool :=
  match l with
  | 'K' :: ',' :: 'X' :: r =>
    match chompSignedDigits r with
    | none => false
    | some r1 =>
      match r1 with
      | 'Y' :: r2 =>
        match chompSignedDigits r2 with
        | none => false
        | some r3 =>
          let r4 := match r3 with | ',' :: t => t | t => t
          let r5 :=
            match r4 with
            | 'T' :: t =>
              let ds := t.takeWhile Char.isDigit
              if ds.isEmpty then none else some (t.drop ds.length)
            | t => some t
          match r5 with
          | none => false
          | some r6 =>
            match r6 with
            | [] => true
            | [','] => true
            | _ => false
      | _ => false
  | _ => false

/-- `^I\d+X-?\d+Y-?\d+A.+$`. -/
def pointPat (l : List Char) : Bool :=
  match l with
  | 'I' :: r =>
    let ds := r.takeWhile Char.isDigit
    if ds.isEmpty then false
    else
      match r.drop ds.length with
      | 'X' :: r1 =>
        match chompSignedDigits r1 with
        | none => false
        | some r2 =>
          match r2 with
          | 'Y' :: r3 =>
            match chompSignedDigits r3 with
            | none => false
            | some r4 =>
              match r4 with
              | 'A' :: r5 => !r5.isEmpty
              | _ => false
          | _ => false
      | _ => false
  | _ => false

/-- `line.startswith('@') and '!' not in line`. -/
def netHeaderPat (l : List Char) : Bool :=
  l.headD ' ' = '@' && !l.contains '!'

/-- `"#ATFH" in line`. -/
def atfhIn (l : List Char) : Bool :=
  hasSub ['#', 'A', 'T', 'F', 'H'] l

/-- `line.startswith('UNIT')`. -/
def unitPat (l : List Char) : Bool :=
  leadsWith ['U', 'N', 'I', 'T'] l

/-! ### Per-line processing and the load loop -/

/-- `while net.image > len(self.images) - 1: self.images.append(ViewImage())`
(appends exactly enough fresh boxes to make `image` a valid index). -/
def growImages (imgs : List (Option ViewImage)) (image : Int) : List (Option ViewImage) :=
  imgs ++ List.replicate (image + 1 - imgs.length).toNat (some ViewImage.blank)

/-- `if pt.image < len(self.images) and self.images[pt.image]: ...set_size(pt)`
(a negative `pt.image` cannot arise from the parser, so Python's negative
indexing is not modelled). -/
def setSizeAt (imgs : List (Option ViewImage)) (p : Point) : List (Option ViewImage) :=
  if 0 ≤ p.image ∧ p.image < imgs.length then
    match imgs.getD p.image.toNat none with
    | some vi => imgs.set p.image.toNat (some (vi.setSize p))
    | none => imgs
  else imgs

/-- Append a point to the most recent net's list (`self.nets[-1].points.append`). -/
def appendToLastNet (nets : List NetRec) (p : Point) : List NetRec :=
  match nets.getLast? with
  | none => nets
  | some last => nets.dropLast ++ [{ last with points := last.points ++ [p] }]

/-- The `#ATFH` handler (`Les.load_file`, lines 426–430). -/
def handleAtfh (st : LesState) (line : List Char) : LesState :=
  if (splitOnC ':' line).length > 1 then
    { st with test := (splitOnC ':' line).getD 1 [] }
  else st

/-- The layer-count handler (lines 431–436). -/
def handleLayerCount (st : LesState) (n : Nat) : LesState :=
  { st with
    count_of_layer := (n : Int)
    images := if st.images.length < 2 then [none, some ViewImage.blank] else st.images }

/-- The `UNIT` handler (lines 437–451). -/
def handleUnit (st : LesState) (line : List Char) : LesState :=
  if (splitOnC ':' line).length ≥ 3 then
    let u := (trimC ((splitOnC ':' line).getD 1 [])).map Char.toUpper
    let res := (parseFloatC ((splitOnC ':' line).getD 2 [])).getD 1
    let scale : ℚ :=
      if u = ['I', 'N', 'C', 'H'] then (if res = 0 then 1 else (127 / 5 : ℚ) / res)
      else if u = ['M', 'M'] then (if res = 0 then 1 else 1 / res)
      else 1
    { st with unit := u, scale := scale }
  else st

/-- The outline-vertex handler (lines 452–467).  The unpack
`xs, ys = coord.split('Y', 1)` would raise without a `Y`, which
`outline_pattern` rules out; the pure `has_comma`/`work`/`coord` computations
are inlined. -/
def handleOutline (st : LesState) (line : List Char) : Except Unit LesState :=
  match splitFirstC 'Y' (splitFirstC 'T' (dropTrailingCommas (line.drop 2))).1 with
  | (xs, some ys) =>
    let xy : ℚ × ℚ :=
      match parseFloatC (xs.filter (· ≠ 'X')), parseFloatC ys with
      | some a, some b => (a * st.scale, b * st.scale)
      | _, _ => (0, 0)
    let seg := st.current_segment ++ [xy]
    .ok (if ¬(line.getLast? = some ',') ∧ ¬seg.isEmpty then
      { st with outline_points := st.outline_points ++ [seg], current_segment := [] }
    else { st with current_segment := seg })
  | (_, none) => .error ()

/-- The tooling-hole handler (lines 468–475). -/
def handleTooling (st : LesState) (i : Nat) (line : List Char) : LesState :=
  let style : PointStyle :=
    match st.index_of_step with
    | none => .GLOBAL
    | some k => if i < k then .GLOBAL else .LOCAL
  let p0 := mkPoint line 1 st.apertures none (some style)
  let p := { p0 with x := p0.x * st.scale, y := p0.y * st.scale }
  { st with points := st.points ++ [p] }

/-- The aperture-definition handler (lines 476–480). -/
def handleAperture (st : LesState) (line : List Char) : Except Unit LesState :=
  match apertureDecode line with
  | .error e => .error e
  | .ok ap => .ok { st with apertures := st.apertures ++ [applyScaleAp st.scale ap] }

/-- The step-definition handler (lines 481–486). -/
def handleStep (st : LesState) (i : Nat) (line : List Char) : Except Unit LesState :=
  match lesStepDecode line with
  | .error e => .error e
  | .ok sp =>
    .ok { st with steps := st.steps ++ [sp.scaleValues st.scale], index_of_step := some i }

/-- The net-header handler (lines 487–492). -/
def handleNet (st : LesState) (line : List Char) : LesState :=
  { st with
    nets := st.nets ++ [{ data := netDecode line, points := [] }]
    images := growImages st.images (netDecode line).image }

/-- The regular-point handler (lines 493–506). -/
def handlePoint (st : LesState) (line : List Char) : LesState :=
  let nd := ((st.nets.getLast?).map NetRec.data).getD NetData.blank
  let p0 := mkPoint (stripBrackets line) st.count_of_layer st.apertures (some nd) none
  let p := { p0 with x := p0.x * st.scale, y := p0.y * st.scale }
  { st with
    points := st.points ++ [p]
    nets := appendToLastNet st.nets p
    images := setSizeAt (growImages st.images p.image) p }

/-- One iteration of the `for i, raw in enumerate(self.content)` loop of
`Les.load_file`: strip the line, classify it in the source's order (first
match wins), and apply the branch's handler.  An uncaught constructor
exception (`Aperture`/`LesStep`) aborts the whole load. -/
def processLine (st : LesState) (i : Nat) (raw : List Char) : Except Unit LesState :=
  if (trimC raw).isEmpty then .ok st
  else if atfhIn (trimC raw) then .ok (handleAtfh st (trimC raw))
  else
    match layerMatch (trimC raw) with
    | some n => .ok (handleLayerCount st n)
    | none =>
      if unitPat (trimC raw) then .ok (handleUnit st (trimC raw))
      else if outlinePat (trimC raw) then handleOutline st (trimC raw)
      else if toolingPat (trimC raw) then .ok (handleTooling st i (trimC raw))
      else if aperturePat (trimC raw) then handleAperture st (trimC raw)
      else if stepPat (trimC raw) then handleStep st i (trimC raw)
      else if netHeaderPat (trimC raw) then .ok (handleNet st (trimC raw))
      else if pointPat (stripBrackets (trimC raw)) then .ok (handlePoint st (trimC raw))
      else .ok st

/-! ### Panel/Image naming pass (`les_parser_panel_image.py`) -/

/-- `f"Panel {panel} Image {img}"`. -/
def panelName (panel : Nat) (img : Int) : String :=
  "Panel " ++ toString panel ++ " Image " ++ toString img

/-- Insert a panel index under an image id in `image_usage`
(`image_usage.setdefault`-style grow-or-append). -/
def usageAdd (u : List (Int × List Nat)) (img : Int) (panel : Nat) :
    List (Int × List Nat) :=
  if (u.lookup img).isSome then
    u.map fun e => if e.1 = img then (e.1, e.2 ++ [panel]) else e
  else u ++ [(img, [panel])]

/-- `while next_image_id in image_usage: next_image_id += 1`.  The fuel
`used.length + 1` suffices because the keys of `image_usage` are distinct. -/
def nextFree (used : List Int) (n : Int) : Nat → Int
  | 0 => n
  | fuel + 1 => if n ∈ used then nextFree used (n + 1) fuel else n

/-- The per-point loop of `assign_panel_image_names`, threading the mutable
`image_usage`, `panel_image_names` and `next_image_id`. -/
def namingFold (usage : List (Int × List Nat)) (names : List ((Nat × Int) × String))
    (nid : Int) : List Point → List Point
  | [] => []
  | pt :: rest =>
    if pt.image = 0 then
      let img := nextFree (usage.map Prod.fst) nid (usage.length + 1)
      let usage1 := usage ++ [(img, [1])]
      let names1 := names ++ [((1, img), panelName 1 img)]
      let panels := (usage1.lookup img).getD [1]
      let panel := panels.headD 1
      let nm := (names1.lookup (panel, img)).getD (panelName panel img)
      { pt with image := img, panel_image_name := some nm } ::
        namingFold usage1 names1 img rest
    else
      let panels := (usage.lookup pt.image).getD [1]
      let panel := panels.headD 1
      let nm := (names.lookup (panel, pt.image)).getD (panelName panel pt.image)
      { pt with panel_image_name := some nm } :: namingFold usage names nid rest

/-- `assign_panel_image_names(steps, points)`. -/
def assignPanelImageNames (steps : List LesStep) (points : List Point) : List Point :=
  let usage0 : List (Int × List Nat) :=
    (steps.enum).foldl (fun u e => usageAdd u e.2.image (e.1 + 1)) []
  let names0 : List ((Nat × Int) × String) :=
    usage0.foldl (fun acc e => acc ++ e.2.map fun p => ((p, e.1), panelName p e.1)) []
  namingFold usage0 names0 1 points

/-- The epilogue of `Les.load_file`: the trailing-segment flush, with the
naming-pass call indented *inside* the `if current_outline_segment:` block —
exactly as in the source (`les_parser.py`, lines 507–509). -/
def lesFinalize (st : LesState) : LesState :=
  if ¬st.current_segment.isEmpty then
    { st with
      outline_points := st.outline_points ++ [st.current_segment]
      points := assignPanelImageNames st.steps st.points
      current_segment := [] }
  else st

/-- `Les.load_file`, over the already-split lines of the file. -/
def lesLoadLines (lines : List (List Char)) : Except Unit LesState := do
  let st ← lines.enum.foldlM (fun s e => processLine s e.1 e.2) LesState.init
  pure (lesFinalize st)

/-! ## XML data model (`xml_parser.py`)

Attribute floats are modelled over `ℝ` because the resolver feeds them into
`math.cos`/`math.sin`.  String attributes keep their parse-time defaults
(`direction` defaults to `'cw'`, numeric attributes to `0`).
-/

/-- `Edge` (the `id` attribute is never consumed). -/
structure Edge where
  type : String
  xs : ℝ
  ys : ℝ
  xe : ℝ
  ye : ℝ
  xc : ℝ
  yc : ℝ
  radius : ℝ
  direction : String

/-- `Barcode` (only the drawn fields). -/
structure Barcode where
  x : ℝ
  y : ℝ
  width : ℝ
  height : ℝ
  content : String

/-- `Layer`. -/
structure Layer where
  barcode_list : List Barcode

/-- `Repeat` (the `id`/`pos_num`/`number` attributes are never consumed by
the resolver). -/
structure Repeat where
  step : String
  x : ℝ
  y : ℝ
  angle : ℝ

/-- `Step`. -/
structure Step where
  name : String
  type : String
  x : ℝ
  y : ℝ
  width : ℝ
  height : ℝ
  edges : List Edge
  repeats : List Repeat
  layers : List Layer

/-- Python-dict lookup `self.steps[name]` / `name in self.steps`. -/
def dlookup (d : List (String × Step)) (k : String) : Option Step :=
  (d.find? fun e => decide (e.1 = k)).map Prod.snd

/-- Python-dict insertion for `self.steps[st.name] = st`: overwriting an
existing key keeps its position, a new key is appended. -/
def dictInsert (d : List (String × Step)) (k : String) (v : Step) :
    List (String × Step) :=
  if (dlookup d k).isSome then d.map fun e => if e.1 = k then (k, v) else e
  else d ++ [(k, v)]

/-- The step/start-step portion of `Drawing.parse_xml` (lines 88–95), over the
already-constructed `<step>` records in document order.  `startElem` is
`none` when the document has no `<start>` element, and `some attr` (with
`attr` the optional `step` attribute) when it does; `self.start_step` starts
as the falsy `""` (`some ""`). -/
def parseXmlSteps (startElem : Option (Option String)) (stepsInOrder : List Step) :
    Option String × List (String × Step) :=
  let ss0 : Option String :=
    match startElem with
    | none => some ""
    | some attr => attr
  let d := stepsInOrder.foldl (fun acc st => dictInsert acc st.name st) []
  let ss1 : Option String :=
    if (ss0 = none ∨ ss0 = some "") ∧ ¬d.isEmpty then d.head?.map Prod.fst else ss0
  (ss1, d)

/-! ## Geometry kernel (`VIEWER_TRY_8/canvas/xml_drawing.py`) -/

/-- Python `a % m` on floats (for `m > 0`): `a - m * ⌊a / m⌋`. -/
noncomputable def realMod (a m : ℝ) : ℝ := a - m * ⌊a / m⌋

/-- `_normalize_deg` (the `if a < 0` branch is dead for finite inputs but is
kept verbatim). -/
noncomputable def normalizeDeg (a : ℝ) : ℝ :=
  let b := realMod a 360
  if b < 0 then b + 360 else b

/-- `_angle_in_sweep(a, a0, a1, direction)`, as the proposition the float
comparison decides. -/
noncomputable def angleInSweep (a a0 a1 : ℝ) (direction : String) : Prop :=
  let an := normalizeDeg a
  let a0n := normalizeDeg a0
  let a1n := normalizeDeg a1
  let sw : ℝ × ℝ := if direction.toLower = "cw" then (a1n, a0n) else (a0n, a1n)
  realMod (an - sw.1) 360 ≤ realMod (sw.2 - sw.1) 360 + 1e-9

/-- `math.radians`. -/
noncomputable def degToRad (d : ℝ) : ℝ := d * Real.pi / 180

/-- `_angle_deg_math(cx, cy, x, y)`: `math.degrees(math.atan2(cy - y, x - cx))
% 360.0`, with `atan2 im re = Complex.arg ⟨re, im⟩`. -/
noncomputable def angleDegMath (cx cy x y : ℝ) : ℝ :=
  realMod (Complex.arg ⟨x - cx, cy - y⟩ * 180 / Real.pi) 360

/-- `_xml_dir_to_math`. -/
def xmlDirToMath (d : String) : String :=
  if d.toLower = "cw" then "ccw" else "cw"

/-- `rotate_translate(x, y, angle_rad, off_x, off_y)` (`xml_drawing.py`,
lines 49–52). -/
noncomputable def rotate_translate (x y angle_rad off_x off_y : ℝ) : ℝ × ℝ :=
  (x * Real.cos angle_rad - y * Real.sin angle_rad + off_x,
   y * Real.cos angle_rad + x * Real.sin angle_rad + off_y)

/-- The signed sweep `delta` of `arc_polyline_world_points`: the ccw sweep
`(end - start) % 360`, negated for a cw arc. -/
noncomputable def arcDelta (a0 a1 : ℝ) (direction : String) : ℝ :=
  if direction.toLower = "ccw" then realMod (a1 - a0) 360 else -(realMod (a0 - a1) 360)

/-- The segment count `n` of `arc_polyline_world_points` (clamped to
`[12, 512]` by the `max`/`min` and floored from the pixel arc length; Python
`int` truncation is `⌊·⌋` since the argument is nonnegative). -/
noncomputable def arcSegN (zoom r delta : ℝ) : ℤ :=
  let arcLenPx := |degToRad delta| * max (r * zoom) 1
  let n1 : Int := max 12 (min 512 ⌊arcLenPx / 3⌋)
  if n1 < 2 then 2 else n1

/-- `arc_polyline_world_points(canvas, cx, cy, r, start, end, direction)`;
`canvas` only contributes `zoom_level`. -/
noncomputable def arcPolylineWorldPoints (zoom cx cy r a0 a1 : ℝ)
    (direction : String) : List (ℝ × ℝ) :=
  let delta := arcDelta a0 a1 direction
  let n : Int := arcSegN zoom r delta
  let stepRad := degToRad delta / n
  let startRad := degToRad a0
  (List.range (n.toNat + 1)).map fun i : ℕ =>
    (cx + r * Real.cos (startRad + i * stepRad),
     cy - r * Real.sin (startRad + i * stepRad))

/-! ## Bounding boxes -/

/-- The 4-tuple `bounds` / return of `arc_bounds`. -/
structure Box where
  minx : ℝ
  miny : ℝ
  maxx : ℝ
  maxy : ℝ

/-- Membership of a point in a box. -/
def inBox (v : ℝ × ℝ) (b : Box) : Prop :=
  b.minx ≤ v.1 ∧ v.1 ≤ b.maxx ∧ b.miny ≤ v.2 ∧ v.2 ≤ b.maxy

/-- The componentwise union of two boxes. -/
def mergeBox (a b : Box) : Box :=
  ⟨min a.minx b.minx, min a.miny b.miny, max a.maxx b.maxx, max a.maxy b.maxy⟩

/-- `add_bounds` with `none` playing the role of the
`(inf, inf, -inf, -inf)` initial value (the incoming box is always finite, so
the source's `b[0] != inf` guard always passes). -/
def addBounds (acc : Option Box) (b : Box) : Option Box :=
  some (match acc with
        | none => b
        | some a => mergeBox a b)

/-- `A` is contained in `B` componentwise. -/
def boxLE (a b : Box) : Prop :=
  b.minx ≤ a.minx ∧ b.miny ≤ a.miny ∧ a.maxx ≤ b.maxx ∧ a.maxy ≤ b.maxy

/-- Python `min(...)`/`max(...)` over a (nonempty) list. -/
def listMinD : List ℝ → ℝ
  | [] => 0
  | x :: xs => xs.foldl min x

def listMaxD : List ℝ → ℝ
  | [] => 0
  | x :: xs => xs.foldl max x

/-- `fit_step.arc_bounds` (`xml_drawing.py`, lines 197–207): the two
endpoint samples, plus the samples at whichever cardinal angles pass
`_angle_in_sweep`. -/
noncomputable def arcBounds (cx cy r a0 a1 : ℝ) (direction : String) : Box :=
  let circPt : ℝ → ℝ × ℝ := fun ang =>
    (cx + r * Real.cos (degToRad ang), cy - r * Real.sin (degToRad ang))
  let cards : List (ℝ × ℝ) := open Classical in
    (if angleInSweep 0 a0 a1 direction then [circPt 0] else []) ++
    (if angleInSweep 90 a0 a1 direction then [circPt 90] else []) ++
    (if angleInSweep 180 a0 a1 direction then [circPt 180] else []) ++
    (if angleInSweep 270 a0 a1 direction then [circPt 270] else [])
  let pts := [circPt a0, circPt a1] ++ cards
  ⟨listMinD (pts.map Prod.fst), listMinD (pts.map Prod.snd),
   listMaxD (pts.map Prod.fst), listMaxD (pts.map Prod.snd)⟩

/-! ## The recursive walks

Both walks first resolve, per primitive, the same absolute-frame coordinates;
`Prim` records exactly those resolved values (for an arc: the transformed
start/end/center, the recomputed radius, the two math-frame angles and the
math-frame direction).
-/

/-- A resolved primitive. -/
inductive Prim where
  | line (sx sy ex ey : ℝ)
  | arc (sx sy ex ey cx cy r a0 a1 : ℝ) (direction : String)
  | bc (bx bv w h : ℝ)

/-- The world-space vertices the draw pass feeds to `world_to_screen` for a
primitive: line endpoints, the arc polyline samples, the barcode anchor.
(The source's `len(pts_world) > 1` guard is dead — the sample list always has
at least 13 points — so it is not modelled.) -/
noncomputable def primVerts (zoom : ℝ) : Prim → List (ℝ × ℝ)
  | .line sx sy ex ey => [(sx, sy), (ex, ey)]
  | .arc _ _ _ _ cx cy r a0 a1 dir => arcPolylineWorldPoints zoom cx cy r a0 a1 dir
  | .bc bx bv _ _ => [(bx, bv)]

/-- The box the bounds pass unions for a primitive (`add_bounds` argument). -/
noncomputable def primBox : Prim → Box
  | .line sx sy ex ey => ⟨min sx ex, min sy ey, max sx ex, max sy ey⟩
  | .arc _ _ _ _ cx cy r a0 a1 dir => arcBounds cx cy r a0 a1 dir
  | .bc bx bv w h => ⟨bx, bv, bx + w, bv + h⟩

/-- The well-formedness every primitive resolved by a walk enjoys: an arc's
direction string comes out of `_xml_dir_to_math` and its radius from a
`hypot`-or-`max(..., 0)`; a barcode's dimensions are those of the source
barcode. -/
def primWf (p : Prim) : Prop :=
  match p with
  | .line _ _ _ _ => True
  | .arc _ _ _ _ _ _ r _ _ dir => (dir = "ccw" ∨ dir = "cw") ∧ 0 ≤ r
  | .bc _ _ w h => 0 ≤ w ∧ 0 ≤ h

/-- Resolve one edge against the current frame — the shared six
`rotate_translate` lines of both walks (draw: lines 104–116; bounds: lines
213–225 of `xml_drawing.py`). -/
noncomputable def resolveEdge (e : Edge) (ang offX offY : ℝ) : List Prim :=
  if e.type = "line" then
    let s := rotate_translate e.xs e.ys ang offX offY
    let t := rotate_translate e.xe e.ye ang offX offY
    [.line s.1 s.2 t.1 t.2]
  else if e.type = "arc" then
    let s := rotate_translate e.xs e.ys ang offX offY
    let t := rotate_translate e.xe e.ye ang offX offY
    let c := rotate_translate e.xc e.yc ang offX offY
    let hyp := Real.sqrt ((s.1 - c.1) ^ 2 + (s.2 - c.2) ^ 2)
    let r := if hyp = 0 then max e.radius 0 else hyp
    let a0 := angleDegMath c.1 c.2 s.1 s.2
    let a1 := angleDegMath c.1 c.2 t.1 t.2
    [.arc s.1 s.2 t.1 t.2 c.1 c.2 r a0 a1 (xmlDirToMath e.direction)]
  else []

/-- Canvas visibility toggles consulted by the walks. -/
structure Flags where
  show_xml_edges : Bool
  show_xml_barcodes : Bool
  show_xml_repeats : Bool

/-- `_draw_xml_step_recursive` as the list of primitives it resolves (the
painting of each primitive is the rendering shell).  The `color`/`depth`
parameters mirror the source signature: note that the recursive call passes
`depth + 1` as the *`color`* argument and leaves `depth` at its default `0`,
exactly as in `xml_drawing.py`, line 141.  `fuel` bounds the recursion that
Python leaves unbounded (Python would raise `RecursionError` past its own
interpreter limit). -/
noncomputable def drawWalk (find : String → Option Step) (fl : Flags) :
    Step → ℝ → ℝ → ℝ → Nat → Nat → Nat → List Prim
  | _, _, _, _, _, _, 0 => []
  | st, baseAngle, offX, offY, _color, depth, fuel + 1 =>
    if 50 < depth then []
    else
      let ang := -baseAngle * Real.pi / 180
      let edgePrims :=
        if fl.show_xml_edges then st.edges.flatMap fun e => resolveEdge e ang offX offY
        else []
      let bcPrims :=
        if fl.show_xml_barcodes then
          st.layers.flatMap fun ly =>
            ly.barcode_list.map fun b =>
              let p := rotate_translate b.x b.y ang offX offY
              Prim.bc p.1 p.2 b.width b.height
        else []
      let rptPrims :=
        if fl.show_xml_repeats then
          st.repeats.flatMap fun r =>
            match find r.step with
            | some sub =>
              let p := rotate_translate r.x r.y ang offX offY
              drawWalk find fl sub (baseAngle + r.angle) p.1 p.2 (depth + 1) 0 fuel
            | none => []
        else []
      edgePrims ++ bcPrims ++ rptPrims

/-- `fit_step.compute_step_bounds` (`xml_drawing.py`, lines 209–237): folds
`add_bounds` over the resolved primitives; descends into repeats only when
`include_repeats and canvas.show_xml_repeats`; threads `depth` without ever
testing it. -/
noncomputable def boundsFit (find : String → Option Step) (fl : Flags)
    (includeRepeats : Bool) :
    Step → ℝ → ℝ → ℝ → Nat → Option Box → Nat → Option Box
  | _, _, _, _, _, acc, 0 => acc
  | st, baseAngle, offX, offY, depth, acc, fuel + 1 =>
    let ang := -baseAngle * Real.pi / 180
    let acc1 :=
      if fl.show_xml_edges then
        st.edges.foldl (fun a e => (resolveEdge e ang offX offY).foldl
          (fun a2 p => addBounds a2 (primBox p)) a) acc
      else acc
    let acc2 :=
      if fl.show_xml_barcodes then
        st.layers.foldl (fun a ly =>
          ly.barcode_list.foldl (fun a2 b =>
            let p := rotate_translate b.x b.y ang offX offY
            addBounds a2 ⟨p.1, p.2, p.1 + b.width, p.2 + b.height⟩) a) acc1
      else acc1
    if includeRepeats ∧ fl.show_xml_repeats then
      st.repeats.foldl (fun a r =>
        match find r.step with
        | some sub =>
          let p := rotate_translate r.x r.y ang offX offY
          boundsFit find fl includeRepeats sub (baseAngle + r.angle) p.1 p.2
            (depth + 1) a fuel
        | none => a) acc2
    else acc2

/-- `ViewerCanvasCore.fit_all`'s inner `compute_step_bounds`
(`viewer_canvas_core.py`, lines 238–269): identical to `boundsFit` except
that repeat descent is gated on `show_xml_repeats` alone, and again `depth`
is threaded but never tested. -/
noncomputable def boundsCore (find : String → Option Step) (fl : Flags) :
    Step → ℝ → ℝ → ℝ → Nat → Option Box → Nat → Option Box
  | _, _, _, _, _, acc, 0 => acc
  | st, baseAngle, offX, offY, depth, acc, fuel + 1 =>
    let ang := -baseAngle * Real.pi / 180
    let acc1 :=
      if fl.show_xml_edges then
        st.edges.foldl (fun a e => (resolveEdge e ang offX offY).foldl
          (fun a2 p => addBounds a2 (primBox p)) a) acc
      else acc
    let acc2 :=
      if fl.show_xml_barcodes then
        st.layers.foldl (fun a ly =>
          ly.barcode_list.foldl (fun a2 b =>
            let p := rotate_translate b.x b.y ang offX offY
            addBounds a2 ⟨p.1, p.2, p.1 + b.width, p.2 + b.height⟩) a) acc1
      else acc1
    if fl.show_xml_repeats then
      st.repeats.foldl (fun a r =>
        match find r.step with
        | some sub =>
          let p := rotate_translate r.x r.y ang offX offY
          boundsCore find fl sub (baseAngle + r.angle) p.1 p.2 (depth + 1) a fuel
        | none => a) acc2
    else acc2

/-- The primitive list underlying `boundsFit` in traversal order (the
decomposition used to compare the bounds walk with the draw walk; the lemma
`boundsFit_eq_fold` ties it to the faithful `boundsFit`). -/
noncomputable def boundsPrims (find : String → Option Step) (fl : Flags)
    (includeRepeats : Bool) : Step → ℝ → ℝ → ℝ → Nat → List Prim
  | _, _, _, _, 0 => []
  | st, baseAngle, offX, offY, fuel + 1 =>
    let ang := -baseAngle * Real.pi / 180
    let edgePrims :=
      if fl.show_xml_edges then st.edges.flatMap fun e => resolveEdge e ang offX offY
      else []
    let bcPrims :=
      if fl.show_xml_barcodes then
        st.layers.flatMap fun ly =>
          ly.barcode_list.map fun b =>
            let p := rotate_translate b.x b.y ang offX offY
            Prim.bc p.1 p.2 b.width b.height
      else []
    let rptPrims :=
      if includeRepeats ∧ fl.show_xml_repeats then
        st.repeats.flatMap fun r =>
          match find r.step with
          | some sub =>
            let p := rotate_translate r.x r.y ang offX offY
            boundsPrims find fl includeRepeats sub (baseAngle + r.angle) p.1 p.2 fuel
          | none => []
      else []
    edgePrims ++ bcPrims ++ rptPrims

/-! ## LES step transform (`LesStep.apply_transformation`) -/

/-- `LesStep.apply_transformation(point, step_index)`.  Note that the mirror
ops recompute the layer from `point.layer` (the *original* layer), not from
the running `layer` variable — `les_parser.py`, lines 150/154.  A `Point`
always has both `layer` and `count_of_layer` attributes, so the `hasattr`
guard always passes. -/
def applyTransformation (st : LesStep) (p : Point) (stepIndex : Nat) : ℚ × ℚ × Int :=
  let z := st.operations.foldl
    (fun (acc : ℚ × ℚ × Int) op =>
      if op = 'D' then (acc.2.1, -acc.1, acc.2.2)
      else if op = 'X' then (acc.1, -acc.2.1, (1 - p.layer) + p.count_of_layer)
      else if op = 'Y' then (-acc.1, acc.2.1, (1 - p.layer) + p.count_of_layer)
      else acc)
    (p.x, p.y, p.layer)
  (z.1 + st.offset_x + stepIndex * st.distance_x,
   z.2.1 + st.offset_y + stepIndex * st.distance_y,
   z.2.2)

/-- The transform exactly as claim C6 words it: the same left-to-right fold,
but with the mirror ops updating the *running* layer
(`layer := (1 - layer) + count_of_layer`). -/
def specApplyTransformation (st : LesStep) (p : Point) (stepIndex : Nat) : ℚ × ℚ × Int :=
  let z := st.operations.foldl
    (fun (acc : ℚ × ℚ × Int) op =>
      if op = 'D' then (acc.2.1, -acc.1, acc.2.2)
      else if op = 'X' then (acc.1, -acc.2.1, (1 - acc.2.2) + p.count_of_layer)
      else if op = 'Y' then (-acc.1, acc.2.1, (1 - acc.2.2) + p.count_of_layer)
      else acc)
    (p.x, p.y, p.layer)
  (z.1 + st.offset_x + stepIndex * st.distance_x,
   z.2.1 + st.offset_y + stepIndex * st.distance_y,
   z.2.2)

/-- The geometric part of the operator chain on its own (used to state what
`applyTransformation` actually computes). -/
def specGeomOps (ops : List Char) (xy : ℚ × ℚ) : ℚ × ℚ :=
  ops.foldl
    (fun (a : ℚ × ℚ) op =>
      if op = 'D' then (a.2, -a.1)
      else if op = 'X' then (a.1, -a.2)
      else if op = 'Y' then (-a.1, a.2)
      else a)
    xy

/-! ## Concrete inputs used by counterexamples and witnesses -/

/-- A `STEP` rule whose operator chain applies the vertical mirror twice. -/
def stepXX : LesStep :=
  { amount := 1, operations := ['X', 'X'], offset_x := 0, offset_y := 0
    distance_x := 0, distance_y := 0, image := 1, tooltip := [] }

/-- A point on layer 1 of a 3-layer board at (2, 5). -/
def pointL1 : Point :=
  { Point.base [] 3 NetData.blank .NORMAL with x := 2, y := 5 }

/-- A step rule with an empty operator chain, used as a witness input. -/
def stepEmptyOps : LesStep :=
  { amount := 2, operations := [], offset_x := 1, offset_y := -1
    distance_x := 3, distance_y := 4, image := 1, tooltip := [] }

/-- The self-repeating XML step: one line edge, one repeat of itself shifted
by (1, 0) — a minimal cyclic repeat graph. -/
def stepCyc : Step :=
  { name := "A", type := "pcs", x := 0, y := 0, width := 1, height := 1
    edges := [{ type := "line", xs := 0, ys := 0, xe := 1, ye := 0, xc := 0
                yc := 0, radius := 0, direction := "cw" }]
    repeats := [{ step := "A", x := 1, y := 0, angle := 0 }]
    layers := [] }

/-- The step dictionary of the cyclic drawing. -/
def findCyc : String → Option Step :=
  fun n => if n = "A" then some stepCyc else none

/-- All visibility toggles on. -/
def flAll : Flags :=
  { show_xml_edges := true, show_xml_barcodes := true, show_xml_repeats := true }

/-- A drawing consisting of one step carrying a single barcode with a
*negative* width at anchor (2, 3). -/
def stepNegBc : Step :=
  { name := "B", type := "", x := 0, y := 0, width := 0, height := 0
    edges := [], repeats := []
    layers := [{ barcode_list := [{ x := 2, y := 3, width := -5, height := 1
                                    content := "" }] }] }

/-- The (empty) lookup for the single-step drawings. -/
def findNone : String → Option Step := fun _ => none

/-- A single step with one line edge from (0, 0) to (10, 0). -/
def stepOneLine : Step :=
  { name := "W", type := "", x := 0, y := 0, width := 0, height := 0
    edges := [{ type := "line", xs := 0, ys := 0, xe := 10, ye := 0, xc := 0
                yc := 0, radius := 0, direction := "cw" }]
    repeats := [], layers := [] }

/-! ## Statement helpers for the walk claims -/

/-- The world-space vertex stream of a root draw pass
(`draw_xml` line 91: `baseAngle = 0`, offset `(-step.x, -step.y)`). -/
noncomputable def drawVerts (find : String → Option Step) (fl : Flags) (zoom : ℝ)
    (st : Step) (fuel : Nat) : List (ℝ × ℝ) :=
  (drawWalk find fl st 0 (-st.x) (-st.y) 0 0 fuel).flatMap (primVerts zoom)

/-- Every barcode of a step has nonnegative width and height. -/
def stepBarcodesNonneg (st : Step) : Prop :=
  ∀ ly ∈ st.layers, ∀ b ∈ ly.barcode_list, 0 ≤ b.width ∧ 0 ≤ b.height

/-- Every barcode reachable through the lookup (and of the root step) has
nonnegative dimensions. -/
def allBarcodesNonneg (find : String → Option Step) (st : Step) : Prop :=
  stepBarcodesNonneg st ∧ ∀ nm s, find nm = some s → stepBarcodesNonneg s

/-- Three `<step>` records, the first and third sharing the name `"A"`. -/
def stepA1 : Step :=
  { name := "A", type := "panel", x := 0, y := 0, width := 1, height := 1
    edges := [], repeats := [], layers := [] }

def stepB : Step :=
  { name := "B", type := "set", x := 0, y := 0, width := 2, height := 2
    edges := [], repeats := [], layers := [] }

def stepA2 : Step :=
  { name := "A", type := "pcs", x := 0, y := 0, width := 3, height := 3
    edges := [], repeats := [], layers := [] }

/-- The enable/layer relationship claim C5 asserts of a point. -/
def pointEnableInv (p : Point) : Prop :=
  (p.style = .NORMAL → (p.is_enable = true ↔ (p.layer = 1 ∨ p.layer = p.count_of_layer)))
  ∧ (p.style ≠ .NORMAL → p.is_enable = false)

/-! # Theorems -/

/-! ## C8 — `rotate_translate` -/

/-- C8: `rotate_translate(x, y, a, ox, oy)` computes exactly
`(x·cos a − y·sin a + ox, y·cos a + x·sin a + oy)` — the left-handed
screen-frame convention — and therefore at angle 0 and offset (0, 0) it
returns the input point unchanged. -/
theorem c8_rotate_translate (x y a ox oy : ℝ) :
    rotate_translate x y a ox oy =
      (x * Real.cos a - y * Real.sin a + ox, y * Real.cos a + x * Real.sin a + oy)
    ∧ rotate_translate x y 0 0 0 = (x, y) := by
  refine ⟨rfl, ?_⟩
  simp [rotate_translate]

/-! ## C6 — `LesStep.apply_transformation` -/

/-- The operator-chain fold of `applyTransformation`, characterised: the
coordinates follow the geometric fold, and the final layer is `flip` exactly
when the chain contains a mirror op. -/
theorem foldTrans_eq (flip : Int) (ops : List Char) :
    ∀ (x y : ℚ) (layer : Int),
      ops.foldl
        (fun (acc : ℚ × ℚ × Int) op =>
          if op = 'D' then (acc.2.1, -acc.1, acc.2.2)
          else if op = 'X' then (acc.1, -acc.2.1, flip)
          else if op = 'Y' then (-acc.1, acc.2.1, flip)
          else acc)
        (x, y, layer)
      = ((specGeomOps ops (x, y)).1, (specGeomOps ops (x, y)).2,
         if ops.contains 'X' ∨ ops.contains 'Y' then flip else layer) := by
  induction ops with
  | nil => intro x y layer; simp [specGeomOps]
  | cons c rest ih =>
    intro x y layer
    by_cases hD : c = 'D'
    · subst hD
      simpa [specGeomOps, List.contains_cons] using ih y (-x) layer
    · by_cases hX : c = 'X'
      · subst hX
        have h := ih x (-y) flip
        simp only [specGeomOps, List.foldl_cons, if_pos rfl, if_neg hD] at h ⊢
        simp only [List.contains_cons]
        simp [h]
      · by_cases hY : c = 'Y'
        · subst hY
          have h := ih (-x) y flip
          simp only [specGeomOps, List.foldl_cons, if_neg hD, if_pos rfl] at h ⊢
          simp only [List.contains_cons]
          simp [h, hX]
        · have h := ih x y layer
          simp only [specGeomOps, List.foldl_cons, if_neg hD, if_neg hX, if_neg hY] at h ⊢
          simp only [List.contains_cons]
          have hcx : (c == 'X') = false := by simpa using hX
          have hcy : (c == 'Y') = false := by simpa using hY
          have h1 : ¬('X' = c) := fun hh => hX hh.symm
          have h2 : ¬('Y' = c) := fun hh => hY hh.symm
          simp [h, hcx, hcy, h1, h2]

/-- C6 (amended): `apply_transformation` applies the operator chain left to
right on the coordinates exactly as claimed, but the layer produced is
`(1 - point.layer) + point.count_of_layer` — recomputed from the point's
*original* layer — whenever the chain contains at least one mirror op (`X` or
`Y`), and the original layer otherwise; the additive term
`offset + i·distance` is then added, and an empty chain changes `(x, y)` by
that additive term only. -/
theorem c6_apply_transformation (st : LesStep) (p : Point) (i : Nat) :
    applyTransformation st p i =
      ((specGeomOps st.operations (p.x, p.y)).1 + st.offset_x + i * st.distance_x,
       (specGeomOps st.operations (p.x, p.y)).2 + st.offset_y + i * st.distance_y,
       if st.operations.contains 'X' ∨ st.operations.contains 'Y' then
         (1 - p.layer) + p.count_of_layer
       else p.layer)
    ∧ (st.operations = [] →
        applyTransformation st p i =
          (p.x + st.offset_x + i * st.distance_x,
           p.y + st.offset_y + i * st.distance_y, p.layer)) := by
  constructor
  · unfold applyTransformation
    rw [foldTrans_eq]
  · intro h
    unfold applyTransformation
    rw [h]
    simp

/-- Witness for C6: the empty chain at `i = 2` on `stepEmptyOps` moves
(2, 5) by the additive term only. -/
theorem c6_apply_transformation_witness :
    applyTransformation stepEmptyOps pointL1 2 = (9, 12, 1) := by
  have h := (c6_apply_transformation stepEmptyOps pointL1 2).2 rfl
  rw [h]
  norm_num [stepEmptyOps, pointL1, Point.base]

/-- C6 counterexample: on the chain `"XX"` (point at layer 1 of 3), the code
yields layer 3 — each mirror recomputes from `point.layer` — while the claim's
running-layer reading yields layer 1; so the claim as stated is false. -/
theorem c6_counterexample :
    applyTransformation stepXX pointL1 0 = (2, 5, 3)
    ∧ specApplyTransformation stepXX pointL1 0 = (2, 5, 1)
    ∧ applyTransformation stepXX pointL1 0 ≠ specApplyTransformation stepXX pointL1 0 := by
  refine ⟨by with_unfolding_all rfl, by with_unfolding_all rfl, ?_⟩
  intro hcontra
  have h1 : applyTransformation stepXX pointL1 0 = (2, 5, 3) := by with_unfolding_all rfl
  have h2 : specApplyTransformation stepXX pointL1 0 = (2, 5, 1) := by with_unfolding_all rfl
  rw [h1, h2] at hcontra
  exact absurd (congrArg (fun t => t.2.2) hcontra) (by norm_num)

/-! ## C3 — aperture decode error handling -/

/-- C3 (the claim is right, the code is wrong): decoding the
pattern-accepted aperture line `O5:abc:2.0` raises — `float('abc')` in
`Aperture.__init__` is unguarded (unlike the `angle` field, which *is*
recovered to its default) — and `Les.load_file` wraps the constructor in no
`try`, so the whole parse aborts instead of keeping the field's zero-default
and continuing. -/
theorem c3_aperture_decode_raises :
    apertureDecode "O5:abc:2.0".toList = .error ()
    ∧ lesLoadLines ["O5:abc:2.0".toList] = .error ()
    ∧ (apertureDecode "O5:1.0:2.0:abc".toList).toOption.map
        (fun a => (a.width, a.height, a.angle)) = some (1, 2, 0) := by
  refine ⟨by with_unfolding_all rfl, by with_unfolding_all rfl, by with_unfolding_all rfl⟩

/-! ## C1 — the naming pass runs only behind the outline flush -/

/-- C1 (the claim is right, the code is wrong): the call to
`assign_panel_image_names` sits *inside* `if current_outline_segment:`
(`les_parser.py`, lines 507–509).  A file that does not end with an
unterminated outline segment — here two lines, a net header and a point —
finishes the load with `panel_image_name` never assigned; appending a single
comma-terminated outline line makes the very same point receive
"Panel 1 Image 1". -/
theorem c1_naming_pass_skipped :
    ((lesLoadLines ["@1C1".toList, "I1X10Y20AS01".toList]).toOption.map fun d =>
        d.points.map Point.panel_image_name) = some [none]
    ∧ ((lesLoadLines ["@1C1".toList, "I1X10Y20AS01".toList, "K,X0Y0,".toList]).toOption.map
        fun d => d.points.map Point.panel_image_name) = some [some "Panel 1 Image 1"] := by
  refine ⟨by with_unfolding_all rfl, by with_unfolding_all rfl⟩

/-! ## C9 — XML step dictionary and start-step default -/

/-- Cons equation for `dlookup`. -/
theorem dlookup_cons (e : String × Step) (rest : List (String × Step)) (k : String) :
    dlookup (e :: rest) k = if e.1 = k then some e.2 else dlookup rest k := by
  unfold dlookup
  by_cases he : e.1 = k
  · rw [List.find?_cons_of_pos _ (by simpa using he)]
    simp [he]
  · rw [List.find?_cons_of_neg _ (by simpa using he)]
    simp [he]

/-- Updating the values at key `k` does not change lookups at other keys. -/
theorem dlookup_map_other (d : List (String × Step)) (k k' : String) (v : Step)
    (h : k' ≠ k) :
    dlookup (d.map fun e => if e.1 = k then (k, v) else e) k' = dlookup d k' := by
  induction d with
  | nil => rfl
  | cons e rest ih =>
    simp only [List.map_cons, dlookup_cons]
    by_cases he : e.1 = k
    · have h1 : ¬(k = k') := fun hh => h hh.symm
      have h2 : ¬(e.1 = k') := by rw [he]; exact h1
      simp [he, h1, h2, ih]
    · simp [he, ih]

/-- If key `k` is present, the map-update makes its lookup `v`. -/
theorem dlookup_map_self (d : List (String × Step)) (k : String) (v : Step)
    (h : (dlookup d k).isSome) :
    dlookup (d.map fun e => if e.1 = k then (k, v) else e) k = some v := by
  induction d with
  | nil => simp [dlookup] at h
  | cons e rest ih =>
    simp only [List.map_cons, dlookup_cons]
    by_cases he : e.1 = k
    · simp [he]
    · have h' : (dlookup rest k).isSome := by rwa [dlookup_cons, if_neg he] at h
      simp [he, ih h']

/-- Lookup in `d ++ [(k, v)]`. -/
theorem dlookup_append_single (d : List (String × Step)) (k k' : String) (v : Step) :
    dlookup (d ++ [(k, v)]) k' =
      match dlookup d k' with
      | some w => some w
      | none => if k' = k then some v else none := by
  induction d with
  | nil =>
    by_cases hk : k' = k
    · simp [dlookup_cons, dlookup, hk]
    · have h1 : ¬(k = k') := fun hh => hk hh.symm
      simp [dlookup_cons, dlookup, hk, h1]
  | cons e rest ih =>
    simp only [List.cons_append, dlookup_cons]
    by_cases he : e.1 = k'
    · simp [he]
    · simp [he, ih]

/-- The characterising equation of `dictInsert`. -/
theorem dlookup_dictInsert (d : List (String × Step)) (k k' : String) (v : Step) :
    dlookup (dictInsert d k v) k' = if k' = k then some v else dlookup d k' := by
  unfold dictInsert
  by_cases hp : (dlookup d k).isSome
  · rw [if_pos hp]
    by_cases hk : k' = k
    · subst hk; rw [if_pos rfl]; exact dlookup_map_self d k' v hp
    · rw [if_neg hk]; exact dlookup_map_other d k k' v hk
  · rw [if_neg hp, dlookup_append_single]
    by_cases hk : k' = k
    · subst hk
      have hnone : dlookup d k' = none := by
        cases hd : dlookup d k' with
        | none => rfl
        | some w => rw [hd] at hp; simp at hp
      rw [hnone]
    · rw [if_neg hk]
      cases hd : dlookup d k' <;> simp [hk]

/-- Folding the step inserts: lookup returns the *last* step with that name,
falling back to the accumulator dictionary. -/
theorem foldInsert_dlookup (l : List Step) :
    ∀ (d : List (String × Step)) (k : String),
      dlookup (l.foldl (fun acc st => dictInsert acc st.name st) d) k
      = match (l.filter fun s => decide (s.name = k)).getLast? with
        | some s => some s
        | none => dlookup d k := by
  induction l with
  | nil => intro d k; simp
  | cons s rest ih =>
    intro d k
    rw [List.foldl_cons, ih]
    by_cases hn : s.name = k
    · rw [List.filter_cons_of_pos (by simpa using hn)]
      cases hrest : (rest.filter fun x => decide (x.name = k)).getLast? with
      | some t =>
        have hlast : (s :: rest.filter fun x => decide (x.name = k)).getLast? = some t := by
          rw [List.getLast?_cons]
          rw [hrest]
          rfl
        rw [hlast]
      | none =>
        have hempty : (rest.filter fun x => decide (x.name = k)) = [] := by
          simpa using hrest
        rw [hempty]
        simp [dlookup_dictInsert, hn.symm]
    · rw [List.filter_cons_of_neg (by simpa using hn)]
      cases hrest : (rest.filter fun x => decide (x.name = k)).getLast? with
      | some t => rfl
      | none =>
        have hk : ¬(k = s.name) := fun hh => hn hh.symm
        simp [dlookup_dictInsert, hk]

/-- `dictInsert` never empties the dictionary. -/
theorem dictInsert_ne_nil (d : List (String × Step)) (k : String) (v : Step) :
    dictInsert d k v ≠ [] := by
  unfold dictInsert
  split
  · next hp =>
    cases d with
    | nil => exact absurd hp (by simp [dlookup])
    | cons e rest => simp
  · simp

/-- `dictInsert` keeps the first key of a nonempty dictionary. -/
theorem dictInsert_headKey (d : List (String × Step)) (k : String) (v : Step)
    (hd : d ≠ []) :
    (dictInsert d k v).head?.map Prod.fst = d.head?.map Prod.fst := by
  unfold dictInsert
  split
  · cases d with
    | nil => exact absurd rfl hd
    | cons e rest => by_cases he : e.1 = k <;> simp [he]
  · cases d with
    | nil => exact absurd rfl hd
    | cons e rest => simp

/-- The fold of inserts keeps the first key of a nonempty accumulator. -/
theorem foldInsert_headKey (l : List Step) :
    ∀ d, d ≠ [] →
      ((l.foldl (fun acc st => dictInsert acc st.name st) d).head?.map Prod.fst)
        = d.head?.map Prod.fst := by
  induction l with
  | nil => intro d _; rfl
  | cons s rest ih =>
    intro d hd
    rw [List.foldl_cons, ih _ (dictInsert_ne_nil d _ _), dictInsert_headKey d _ _ hd]

/-- C9: every `<step>` is stored keyed by its `name` with the last occurrence
winning on duplicates (lookup returns the last step of that name, never an
error), and when no `<start>` element was present and at least one step
exists, `start_step` is the name of the first step in document order. -/
theorem c9_parse_xml_steps (startElem : Option (Option String)) (steps : List Step)
    (nm : String) :
    dlookup (parseXmlSteps startElem steps).2 nm
      = (steps.filter fun s => decide (s.name = nm)).getLast?
    ∧ (startElem = none → steps ≠ [] →
        (parseXmlSteps startElem steps).1 = steps.head?.map Step.name) := by
  constructor
  · show dlookup (steps.foldl (fun acc st => dictInsert acc st.name st) []) nm = _
    rw [foldInsert_dlookup]
    cases h : (steps.filter fun s => decide (s.name = nm)).getLast? <;> simp [dlookup]
  · intro hse hne
    subst hse
    cases steps with
    | nil => exact absurd rfl hne
    | cons s rest =>
      have hstep1 : ((s :: rest).foldl (fun acc st => dictInsert acc st.name st) [])
          = rest.foldl (fun acc st => dictInsert acc st.name st) [(s.name, s)] := rfl
      have hkey : ((s :: rest).foldl (fun acc st => dictInsert acc st.name st)
          []).head?.map Prod.fst = some s.name := by
        rw [hstep1, foldInsert_headKey rest [(s.name, s)] (by simp)]
        rfl
      have hne2 : ((s :: rest).foldl (fun acc st => dictInsert acc st.name st) []) ≠ [] := by
        intro hempty
        rw [hempty] at hkey
        simp at hkey
      show (if _ ∧ _ then _ else _) = _
      rw [if_pos ⟨Or.inr rfl, by simpa using hne2⟩, hkey]
      rfl

/-- Witness for C9: with steps named A, B, A (in that order) and no `<start>`
element, lookup of "A" yields the *last* A-step, and `start_step` defaults to
"A", the first name in document order. -/
theorem c9_parse_xml_steps_witness :
    dlookup (parseXmlSteps none [stepA1, stepB, stepA2]).2 "A" = some stepA2
    ∧ (parseXmlSteps none [stepA1, stepB, stepA2]).1 = some "A" := by
  have h := c9_parse_xml_steps none [stepA1, stepB, stepA2] "A"
  refine ⟨h.1.trans ?_, (h.2 rfl (by simp)).trans ?_⟩
  · with_unfolding_all rfl
  · with_unfolding_all rfl

/-! ## C5 — `is_enable` versus layer -/

/-- A tooling line is exactly `F,X...`. -/
theorem toolingPat_shape (l : List Char) (h : toolingPat l = true) :
    ∃ rest, l = 'F' :: ',' :: 'X' :: rest := by
  rcases l with _ | ⟨c1, _ | ⟨c2, _ | ⟨c3, rest⟩⟩⟩ <;>
    simp [toolingPat, leadsWith] at h
  obtain ⟨h1, h2, h3⟩ := h
  exact ⟨rest, by rw [h1, h2, h3]⟩

/-- The tooling constructor disables the point and keeps the given style. -/
theorem mkTooling_fields (content : List Char) (cnt : Int) (aps : List Aperture)
    (style : PointStyle) :
    (mkToolingPoint content cnt aps style).is_enable = false
    ∧ (mkToolingPoint content cnt aps style).style = style :=
  ⟨rfl, rfl⟩

/-- The regular constructor establishes the enable/layer biconditional. -/
theorem mkRegular_inv (content : List Char) (cnt : Int) (aps : List Aperture)
    (nd : NetData) :
    (mkRegularPoint content cnt aps nd).style = .NORMAL
    ∧ (mkRegularPoint content cnt aps nd).count_of_layer = cnt
    ∧ ((mkRegularPoint content cnt aps nd).is_enable = true ↔
        ((mkRegularPoint content cnt aps nd).layer = 1
          ∨ (mkRegularPoint content cnt aps nd).layer
              = (mkRegularPoint content cnt aps nd).count_of_layer)) := by
  simp only [mkRegularPoint, Point.base]
  split
  · refine ⟨rfl, rfl, ?_⟩
    simp only [decide_eq_true_eq]
  · refine ⟨rfl, rfl, ?_⟩
    simp

/-- A tooling point satisfies the (amended) invariant. -/
theorem mkTooling_inv (content : List Char) (cnt : Int) (aps : List Aperture)
    (s : PointStyle) (hs : s ≠ .NORMAL) :
    pointEnableInv (mkToolingPoint content cnt aps s) := by
  constructor
  · intro hstyle
    exact absurd ((mkTooling_fields content cnt aps s).2.symm.trans hstyle) hs
  · intro _
    exact (mkTooling_fields content cnt aps s).1

/-- A point built through `mkPoint` with no explicit style satisfies the
invariant (both the empty-content default and the regular path). -/
theorem mkPoint_none_inv (content : List Char) (cnt : Int) (aps : List Aperture)
    (nd : NetData) :
    pointEnableInv (mkPoint content cnt aps (some nd) none) := by
  unfold mkPoint
  split
  · exact ⟨fun _ => by simp [Point.base], fun hns => absurd rfl hns⟩
  · have h := mkRegular_inv content cnt aps nd
    exact ⟨fun _ => h.2.2, fun hns => absurd h.1 hns⟩

/-- Rescaling the coordinates does not touch the invariant fields. -/
theorem pointEnableInv_scaled (p : Point) (a b : ℚ) (hp : pointEnableInv p) :
    pointEnableInv { p with x := a, y := b } :=
  hp

/-- The tooling path through `mkPoint` (nonempty content, explicit style). -/
theorem mkPoint_tooling (content : List Char) (cnt : Int) (aps : List Aperture)
    (s : PointStyle) (hne : content.isEmpty = false) (hs : s = .GLOBAL ∨ s = .LOCAL) :
    mkPoint content cnt aps none (some s) = mkToolingPoint content cnt aps s := by
  unfold mkPoint
  rw [if_neg (by simp [hne])]
  dsimp only
  rw [if_pos hs]

/-- The test-name handler does not touch the point list. -/
theorem handleAtfh_points (st : LesState) (line : List Char) :
    (handleAtfh st line).points = st.points := by
  unfold handleAtfh; split <;> rfl

/-- The layer-count handler does not touch the point list. -/
theorem handleLayerCount_points (st : LesState) (n : Nat) :
    (handleLayerCount st n).points = st.points := rfl

/-- The unit handler does not touch the point list. -/
theorem handleUnit_points (st : LesState) (line : List Char) :
    (handleUnit st line).points = st.points := by
  unfold handleUnit; split <;> rfl

/-- The outline handler does not touch the point list. -/
theorem handleOutline_points (st : LesState) (line : List Char) (st' : LesState)
    (h : handleOutline st line = .ok st') : st'.points = st.points := by
  unfold handleOutline at h
  split at h
  · injection h with h'
    subst h'
    split <;> rfl
  · exact Except.noConfusion h

/-- The aperture handler does not touch the point list. -/
theorem handleAperture_points (st : LesState) (line : List Char) (st' : LesState)
    (h : handleAperture st line = .ok st') : st'.points = st.points := by
  unfold handleAperture at h
  split at h
  · exact Except.noConfusion h
  · injection h with h'; subst h'; rfl

/-- The step handler does not touch the point list. -/
theorem handleStep_points (st : LesState) (i : Nat) (line : List Char) (st' : LesState)
    (h : handleStep st i line = .ok st') : st'.points = st.points := by
  unfold handleStep at h
  split at h
  · exact Except.noConfusion h
  · injection h with h'; subst h'; rfl

/-- The net handler does not touch the point list. -/
theorem handleNet_points (st : LesState) (line : List Char) :
    (handleNet st line).points = st.points := rfl

/-- The tooling handler appends one tooling point, which satisfies the
invariant. -/
theorem handleTooling_enable_inv (st : LesState) (i : Nat) (line : List Char)
    (hne : line.isEmpty = false)
    (hst : ∀ p ∈ st.points, pointEnableInv p) :
    ∀ p ∈ (handleTooling st i line).points, pointEnableInv p := by
  intro p hp
  unfold handleTooling at hp
  simp only [List.mem_append, List.mem_singleton] at hp
  rcases hp with hold | rfl
  · exact hst p hold
  · refine pointEnableInv_scaled _ _ _ ?_
    cases hidx : st.index_of_step with
    | none =>
      dsimp only
      rw [mkPoint_tooling _ _ _ _ hne (Or.inl rfl)]
      exact mkTooling_inv _ _ _ _ (by simp)
    | some k =>
      dsimp only
      by_cases hik : i < k
      · rw [if_pos hik, mkPoint_tooling _ _ _ _ hne (Or.inl rfl)]
        exact mkTooling_inv _ _ _ _ (by simp)
      · rw [if_neg hik, mkPoint_tooling _ _ _ _ hne (Or.inr rfl)]
        exact mkTooling_inv _ _ _ _ (by simp)

/-- The regular-point handler appends one regular point, which satisfies the
invariant. -/
theorem handlePoint_enable_inv (st : LesState) (line : List Char)
    (hst : ∀ p ∈ st.points, pointEnableInv p) :
    ∀ p ∈ (handlePoint st line).points, pointEnableInv p := by
  intro p hp
  unfold handlePoint at hp
  simp only [List.mem_append, List.mem_singleton] at hp
  rcases hp with hold | rfl
  · exact hst p hold
  · exact pointEnableInv_scaled _ _ _ (mkPoint_none_inv _ _ _ _)

/-- One classifier step preserves the invariant on the point list. -/
theorem processLine_enable_inv (st : LesState) (i : Nat) (raw : List Char)
    (st' : LesState) (h : processLine st i raw = .ok st')
    (hst : ∀ p ∈ st.points, pointEnableInv p) :
    ∀ p ∈ st'.points, pointEnableInv p := by
  unfold processLine at h
  split at h
  · injection h with h'; subst h'; exact hst
  · split at h
    · injection h with h'; subst h'
      intro p hp
      rw [handleAtfh_points] at hp
      exact hst p hp
    · split at h
      · injection h with h'; subst h'
        intro p hp
        rw [handleLayerCount_points] at hp
        exact hst p hp
      · split at h
        · injection h with h'; subst h'
          intro p hp
          rw [handleUnit_points] at hp
          exact hst p hp
        · split at h
          · intro p hp
            rw [handleOutline_points _ _ _ h] at hp
            exact hst p hp
          · split at h
            · rename_i htool
              injection h with h'; subst h'
              obtain ⟨rest, hshape⟩ := toolingPat_shape _ htool
              exact handleTooling_enable_inv st i (trimC raw) (by rw [hshape]; rfl) hst
            · split at h
              · intro p hp
                rw [handleAperture_points _ _ _ h] at hp
                exact hst p hp
              · split at h
                · intro p hp
                  rw [handleStep_points _ _ _ _ h] at hp
                  exact hst p hp
                · split at h
                  · injection h with h'; subst h'
                    intro p hp
                    rw [handleNet_points] at hp
                    exact hst p hp
                  · split at h
                    · injection h with h'; subst h'
                      exact handlePoint_enable_inv st (trimC raw) hst
                    · injection h with h'; subst h'; exact hst

/-- The naming pass only rewrites `image`/`panel_image_name`, so it preserves
the invariant. -/
theorem namingFold_inv :
    ∀ (pts : List Point) (u : List (Int × List Nat))
      (n : List ((Nat × Int) × String)) (nid : Int),
      (∀ p ∈ pts, pointEnableInv p) → ∀ q ∈ namingFold u n nid pts, pointEnableInv q := by
  intro pts
  induction pts with
  | nil => intro u n nid _ q hq; exact absurd hq (List.not_mem_nil q)
  | cons pt rest ih =>
    intro u n nid hall q hq
    unfold namingFold at hq
    split at hq <;>
    · rcases List.mem_cons.mp hq with rfl | hmem
      · exact hall pt (List.mem_cons_self _ _)
      · exact ih _ _ _ (fun p hp => hall p (List.mem_cons_of_mem _ hp)) q hmem

/-- The whole load preserves the invariant. -/
theorem loadFold_enable_inv :
    ∀ (l : List (Nat × List Char)) (st0 st1 : LesState),
      l.foldlM (fun s e => processLine s e.1 e.2) st0 = .ok st1 →
      (∀ p ∈ st0.points, pointEnableInv p) → ∀ p ∈ st1.points, pointEnableInv p := by
  intro l
  induction l with
  | nil =>
    intro st0 st1 h h0
    injection h with h'
    subst h'
    exact h0
  | cons e rest ih =>
    intro st0 st1 h h0
    rw [List.foldlM_cons] at h
    cases hpe : processLine st0 e.1 e.2 with
    | error err => rw [hpe] at h; exact Except.noConfusion h
    | ok s1 =>
      rw [hpe] at h
      exact ih s1 st1 h (processLine_enable_inv st0 e.1 e.2 s1 hpe h0)

/-- C5 (amended): for every point produced by `Les.load_file`, a
*regular-path* point satisfies `is_enable = true ↔ (layer = 1 ∨
layer = count_of_layer)`; a *tooling-path* point instead always has
`is_enable = false` (with `layer = 1`), so the claimed biconditional holds
exactly on the regular path and fails on every tooling hole. -/
theorem c5_is_enable (lines : List (List Char)) (doc : LesState)
    (h : lesLoadLines lines = .ok doc) :
    ∀ p ∈ doc.points,
      (p.style = .NORMAL → (p.is_enable = true ↔ (p.layer = 1 ∨ p.layer = p.count_of_layer)))
      ∧ (p.style ≠ .NORMAL → p.is_enable = false) := by
  have hfold :
      ∃ st, lines.enum.foldlM (fun s e => processLine s e.1 e.2) LesState.init = .ok st
        ∧ doc = lesFinalize st := by
    unfold lesLoadLines at h
    cases hf : lines.enum.foldlM (fun s e => processLine s e.1 e.2) LesState.init with
    | error err => rw [hf] at h; exact absurd h (by simp [Except.bind])
    | ok st =>
      rw [hf] at h
      exact ⟨st, rfl, by simpa [Except.bind] using h.symm⟩
  obtain ⟨st, hf, hdoc⟩ := hfold
  have hinv : ∀ p ∈ st.points, pointEnableInv p :=
    loadFold_enable_inv _ _ _ hf (by intro p hp; simp [LesState.init] at hp)
  subst hdoc
  unfold lesFinalize
  split
  · intro p hp
    exact namingFold_inv st.points _ _ _ hinv p hp
  · exact hinv

/-- Witness for C5: loading the single tooling line `F,X10Y20` yields one
point; it is on the tooling path, and the theorem forces its
`is_enable = false`. -/
theorem c5_is_enable_witness :
    (((lesLoadLines ["F,X10Y20".toList]).toOption.getD LesState.init).points.head?.getD
        pointL1).style ≠ .NORMAL
    ∧ (((lesLoadLines ["F,X10Y20".toList]).toOption.getD LesState.init).points.head?.getD
        pointL1).is_enable = false := by
  have happ := c5_is_enable ["F,X10Y20".toList]
    ((lesLoadLines ["F,X10Y20".toList]).toOption.getD LesState.init)
    (by with_unfolding_all rfl)
  have hmem : ((lesLoadLines ["F,X10Y20".toList]).toOption.getD
        LesState.init).points.head?.getD pointL1
      ∈ ((lesLoadLines ["F,X10Y20".toList]).toOption.getD LesState.init).points := by
    with_unfolding_all decide
  have hsty : (((lesLoadLines ["F,X10Y20".toList]).toOption.getD
      LesState.init).points.head?.getD pointL1).style ≠ .NORMAL := by
    with_unfolding_all decide
  exact ⟨hsty, (happ _ hmem).2 hsty⟩

/-- C5 counterexample: loading the single tooling line `F,X10Y20` produces a
point with `layer = 1` (so the claimed right-hand side holds) but
`is_enable = false` — the claim's biconditional fails on tooling holes. -/
theorem c5_counterexample :
    ((lesLoadLines ["F,X10Y20".toList]).toOption.map fun d =>
        d.points.map fun p =>
          (p.is_enable, decide (p.layer = 1 ∨ p.layer = p.count_of_layer)))
      = some [(false, true)] := by
  with_unfolding_all rfl

/-! ## C10 — tooling lines and the per-image bounding boxes -/

/-- The test-name handler does not touch `images`. -/
theorem handleAtfh_images (st : LesState) (line : List Char) :
    (handleAtfh st line).images = st.images := by
  unfold handleAtfh; split <;> rfl

/-- The layer-count handler does not touch `images` once it holds the
initial two slots (its reset only fires when `len(images) < 2`). -/
theorem handleLayerCount_images (st : LesState) (n : Nat)
    (h2 : 2 ≤ st.images.length) :
    (handleLayerCount st n).images = st.images := by
  unfold handleLayerCount
  exact if_neg (by omega)

/-- The unit handler does not touch `images`. -/
theorem handleUnit_images (st : LesState) (line : List Char) :
    (handleUnit st line).images = st.images := by
  unfold handleUnit; split <;> rfl

/-- The outline handler does not touch `images`. -/
theorem handleOutline_images (st : LesState) (line : List Char) (st' : LesState)
    (h : handleOutline st line = .ok st') : st'.images = st.images := by
  unfold handleOutline at h
  split at h
  · injection h with h'
    subst h'
    split <;> rfl
  · exact Except.noConfusion h

/-- The aperture handler does not touch `images`. -/
theorem handleAperture_images (st : LesState) (line : List Char) (st' : LesState)
    (h : handleAperture st line = .ok st') : st'.images = st.images := by
  unfold handleAperture at h
  split at h
  · exact Except.noConfusion h
  · injection h with h'; subst h'; rfl

/-- The step handler does not touch `images`. -/
theorem handleStep_images (st : LesState) (i : Nat) (line : List Char) (st' : LesState)
    (h : handleStep st i line = .ok st') : st'.images = st.images := by
  unfold handleStep at h
  split at h
  · exact Except.noConfusion h
  · injection h with h'; subst h'; rfl

/-- C10: processing a tooling-hole line (`F,X...` that is not claimed by the
`#ATFH` test-name branch) appends exactly one point and leaves the per-image
bounding-box list `Les.images` completely unchanged; and on any successfully
processed line, `Les.images` can only change on a net-header line or a
regular-point line (given the invariant `len(images) ≥ 2` that holds
throughout a load). -/
theorem c10_tooling_frame :
    (∀ (st : LesState) (i : Nat) (raw : List Char),
        toolingPat (trimC raw) = true → atfhIn (trimC raw) = false →
        processLine st i raw = .ok (handleTooling st i (trimC raw))
        ∧ (handleTooling st i (trimC raw)).images = st.images
        ∧ ∃ p, (handleTooling st i (trimC raw)).points = st.points ++ [p])
    ∧ (∀ (st : LesState) (i : Nat) (raw : List Char) (st' : LesState),
        processLine st i raw = .ok st' → 2 ≤ st.images.length →
        netHeaderPat (trimC raw) = false →
        pointPat (stripBrackets (trimC raw)) = false →
        st'.images = st.images) := by
  constructor
  · intro st i raw htool hatfh
    obtain ⟨rest, hshape⟩ := toolingPat_shape _ htool
    have h1 : (trimC raw).isEmpty = false := by rw [hshape]; rfl
    have h3 : layerMatch (trimC raw) = none := by rw [hshape]; rfl
    have h4 : unitPat (trimC raw) = false := by rw [hshape]; rfl
    have h5 : outlinePat (trimC raw) = false := by rw [hshape]; rfl
    refine ⟨?_, rfl, ⟨_, rfl⟩⟩
    unfold processLine
    rw [h1, hatfh, h3, h4, h5, htool]
    simp
  · intro st i raw st' h hlen hnet hpt
    unfold processLine at h
    split at h
    · injection h with h'; subst h'; rfl
    · split at h
      · injection h with h'; subst h'
        exact handleAtfh_images st _
      · split at h
        · injection h with h'; subst h'
          exact handleLayerCount_images st _ hlen
        · split at h
          · injection h with h'; subst h'
            exact handleUnit_images st _
          · split at h
            · exact handleOutline_images _ _ _ h
            · split at h
              · injection h with h'; subst h'; rfl
              · split at h
                · exact handleAperture_images _ _ _ h
                · split at h
                  · exact handleStep_images _ _ _ _ h
                  · split at h
                    · rename_i hcond
                      rw [hnet] at hcond
                      exact Bool.noConfusion hcond
                    · split at h
                      · rename_i hcond
                        rw [hpt] at hcond
                        exact Bool.noConfusion hcond
                      · injection h with h'; subst h'; rfl

/-- Witness for C10: concrete tooling line `F,X10Y20` and the (non-net,
non-point) aperture line `T3:20` on the initial state. -/
theorem c10_tooling_frame_witness :
    processLine LesState.init 0 "F,X10Y20".toList
      = .ok (handleTooling LesState.init 0 (trimC "F,X10Y20".toList))
    ∧ ((processLine LesState.init 0 "T3:20".toList).toOption.getD LesState.init).images
        = LesState.init.images := by
  constructor
  · exact (c10_tooling_frame.1 LesState.init 0 "F,X10Y20".toList
      (by with_unfolding_all rfl) (by with_unfolding_all rfl)).1
  · exact c10_tooling_frame.2 LesState.init 0 "T3:20".toList _
      (by with_unfolding_all rfl)
      (of_decide_eq_true (by with_unfolding_all rfl))
      (by with_unfolding_all rfl)
      (by with_unfolding_all rfl)

/-! ## C7 — arc bounds include in-sweep cardinal points -/

/-- `foldl min` is below its seed. -/
theorem foldl_min_le_init : ∀ (t : List ℝ) (h : ℝ), t.foldl min h ≤ h := by
  intro t
  induction t with
  | nil => intro h; exact le_refl h
  | cons a t ih =>
    intro h
    calc (a :: t).foldl min h = t.foldl min (min h a) := rfl
    _ ≤ min h a := ih _
    _ ≤ h := min_le_left _ _

/-- `foldl min` is below every member. -/
theorem foldl_min_le_mem : ∀ (t : List ℝ) (h x : ℝ), x ∈ t → t.foldl min h ≤ x := by
  intro t
  induction t with
  | nil => intro h x hx; exact absurd hx (List.not_mem_nil x)
  | cons a t ih =>
    intro h x hx
    rcases List.mem_cons.mp hx with rfl | hmem
    · calc (x :: t).foldl min h = t.foldl min (min h x) := rfl
      _ ≤ min h x := foldl_min_le_init _ _
      _ ≤ x := min_le_right _ _
    · exact ih _ x hmem

/-- `foldl max` is above its seed. -/
theorem init_le_foldl_max : ∀ (t : List ℝ) (h : ℝ), h ≤ t.foldl max h := by
  intro t
  induction t with
  | nil => intro h; exact le_refl h
  | cons a t ih =>
    intro h
    calc h ≤ max h a := le_max_left _ _
    _ ≤ t.foldl max (max h a) := ih _
    _ = (a :: t).foldl max h := rfl

/-- `foldl max` is above every member. -/
theorem mem_le_foldl_max : ∀ (t : List ℝ) (h x : ℝ), x ∈ t → x ≤ t.foldl max h := by
  intro t
  induction t with
  | nil => intro h x hx; exact absurd hx (List.not_mem_nil x)
  | cons a t ih =>
    intro h x hx
    rcases List.mem_cons.mp hx with rfl | hmem
    · calc x ≤ max h x := le_max_right _ _
      _ ≤ t.foldl max (max h x) := init_le_foldl_max _ _
      _ = (x :: t).foldl max h := rfl
    · exact ih _ x hmem

/-- Python `min` over a nonempty list is below every member. -/
theorem listMinD_le_of_mem (l : List ℝ) (x : ℝ) (hx : x ∈ l) : listMinD l ≤ x := by
  cases l with
  | nil => exact absurd hx (List.not_mem_nil x)
  | cons h t =>
    rcases List.mem_cons.mp hx with rfl | hmem
    · exact foldl_min_le_init t x
    · exact foldl_min_le_mem t h x hmem

/-- Python `max` over a nonempty list is above every member. -/
theorem le_listMaxD_of_mem (l : List ℝ) (x : ℝ) (hx : x ∈ l) : x ≤ listMaxD l := by
  cases l with
  | nil => exact absurd hx (List.not_mem_nil x)
  | cons h t =>
    rcases List.mem_cons.mp hx with rfl | hmem
    · exact init_le_foldl_max t x
    · exact mem_le_foldl_max t h x hmem

/-- Every point fed into `arc_bounds`'s `pts` list lies in the returned box. -/
theorem arcBounds_mem (cx cy r a0 a1 : ℝ) (dir : String) (p : ℝ × ℝ)
    (hp : p ∈ ([((cx + r * Real.cos (degToRad a0), cy - r * Real.sin (degToRad a0))),
                ((cx + r * Real.cos (degToRad a1), cy - r * Real.sin (degToRad a1)))] ++
        (open Classical in
          (if angleInSweep 0 a0 a1 dir then
            [((cx + r * Real.cos (degToRad 0), cy - r * Real.sin (degToRad 0)))] else []) ++
          (if angleInSweep 90 a0 a1 dir then
            [((cx + r * Real.cos (degToRad 90), cy - r * Real.sin (degToRad 90)))] else []) ++
          (if angleInSweep 180 a0 a1 dir then
            [((cx + r * Real.cos (degToRad 180), cy - r * Real.sin (degToRad 180)))] else []) ++
          (if angleInSweep 270 a0 a1 dir then
            [((cx + r * Real.cos (degToRad 270), cy - r * Real.sin (degToRad 270)))] else [])))) :
    inBox p (arcBounds cx cy r a0 a1 dir) := by
  unfold arcBounds
  refine ⟨?_, ?_, ?_, ?_⟩
  · exact listMinD_le_of_mem _ _ (List.mem_map_of_mem Prod.fst hp)
  · exact le_listMaxD_of_mem _ _ (List.mem_map_of_mem Prod.fst hp)
  · exact listMinD_le_of_mem _ _ (List.mem_map_of_mem Prod.snd hp)
  · exact le_listMaxD_of_mem _ _ (List.mem_map_of_mem Prod.snd hp)

/-- C7: for every arc, the computed bounding box contains the circle point at
any cardinal angle `c ∈ {0, 90, 180, 270}` whose `_angle_in_sweep` test
passes, in addition to the two endpoint samples. -/
theorem c7_arc_cardinal_bounds (cx cy r a0 a1 : ℝ) (dir : String) (c : ℝ)
    (hc : c = 0 ∨ c = 90 ∨ c = 180 ∨ c = 270)
    (hsweep : angleInSweep c a0 a1 dir) :
    inBox (cx + r * Real.cos (degToRad c), cy - r * Real.sin (degToRad c))
      (arcBounds cx cy r a0 a1 dir)
    ∧ inBox (cx + r * Real.cos (degToRad a0), cy - r * Real.sin (degToRad a0))
        (arcBounds cx cy r a0 a1 dir)
    ∧ inBox (cx + r * Real.cos (degToRad a1), cy - r * Real.sin (degToRad a1))
        (arcBounds cx cy r a0 a1 dir) := by
  refine ⟨?_, ?_, ?_⟩
  · apply arcBounds_mem
    rcases hc with rfl | rfl | rfl | rfl
    · simp [hsweep]
    · simp [hsweep]
    · simp [hsweep]
    · simp [hsweep]
  · exact arcBounds_mem _ _ _ _ _ _ _ (by simp)
  · exact arcBounds_mem _ _ _ _ _ _ _ (by simp)

/-- `realMod` evaluates on any explicit quotient/remainder decomposition. -/
theorem realMod_eq (a m r : ℝ) (k : ℤ) (hm : 0 < m) (ha : a = m * k + r)
    (h0 : 0 ≤ r) (h1 : r < m) : realMod a m = r := by
  have hmne : m ≠ 0 := ne_of_gt hm
  have hdiv : a / m = (k : ℝ) + r / m := by
    rw [ha]
    field_simp
    ring
  have hfl : ⌊a / m⌋ = k := by
    rw [Int.floor_eq_iff]
    constructor
    · rw [hdiv]
      have : 0 ≤ r / m := div_nonneg h0 (le_of_lt hm)
      linarith
    · rw [hdiv]
      have : r / m < 1 := (div_lt_one hm).mpr h1
      linarith
  unfold realMod
  rw [hfl, ha]
  ring

/-- `0 ≤ realMod a m` for positive modulus. -/
theorem realMod_nonneg (a m : ℝ) (hm : 0 < m) : 0 ≤ realMod a m := by
  unfold realMod
  have h1 : ((⌊a / m⌋ : ℝ)) ≤ a / m := Int.floor_le _
  have h2 : m * (⌊a / m⌋ : ℝ) ≤ m * (a / m) := by
    exact mul_le_mul_of_nonneg_left h1 (le_of_lt hm)
  rw [mul_div_cancel₀ a (ne_of_gt hm)] at h2
  linarith

/-- `realMod a m < m` for positive modulus. -/
theorem realMod_lt (a m : ℝ) (hm : 0 < m) : realMod a m < m := by
  unfold realMod
  have h1 : a / m < (⌊a / m⌋ : ℝ) + 1 := Int.lt_floor_add_one _
  have h2 : m * (a / m) < m * ((⌊a / m⌋ : ℝ) + 1) := by
    exact mul_lt_mul_of_pos_left h1 hm
  rw [mul_div_cancel₀ a (ne_of_gt hm)] at h2
  nlinarith

/-- The `if b < 0` branch of `_normalize_deg` is dead: the float `%` already
lands in `[0, 360)`. -/
theorem normalizeDeg_eq (a : ℝ) : normalizeDeg a = realMod a 360 := by
  unfold normalizeDeg
  rw [if_neg (not_lt.mpr (realMod_nonneg a 360 (by norm_num)))]

/-- Witness for C7: the arc of radius 5 about the origin from 350° to 10°
(ccw) sweeps through 0°, and its box indeed contains (5, 0) — even though
neither endpoint is at 0°. -/
theorem c7_arc_cardinal_bounds_witness :
    inBox ((5 : ℝ), 0) (arcBounds 0 0 5 350 10 "ccw") := by
  have hsweep : angleInSweep 0 350 10 "ccw" := by
    unfold angleInSweep
    dsimp only
    have hlower : "ccw".toLower = "ccw" := by with_unfolding_all rfl
    rw [if_neg (by rw [hlower]; decide)]
    dsimp only
    rw [normalizeDeg_eq, normalizeDeg_eq, normalizeDeg_eq]
    rw [realMod_eq 0 360 0 0 (by norm_num) (by norm_num) le_rfl (by norm_num)]
    rw [realMod_eq 350 360 350 0 (by norm_num) (by norm_num) (by norm_num) (by norm_num)]
    rw [realMod_eq 10 360 10 0 (by norm_num) (by norm_num) (by norm_num) (by norm_num)]
    rw [realMod_eq (0 - 350) 360 10 (-1) (by norm_num) (by norm_num) (by norm_num) (by norm_num)]
    rw [realMod_eq (10 - 350) 360 20 (-1) (by norm_num) (by norm_num) (by norm_num) (by norm_num)]
    norm_num
  have h := (c7_arc_cardinal_bounds 0 0 5 350 10 "ccw" 0 (Or.inl rfl) hsweep).1
  have hpt : ((0 : ℝ) + 5 * Real.cos (degToRad 0), (0 : ℝ) - 5 * Real.sin (degToRad 0))
      = ((5 : ℝ), 0) := by
    unfold degToRad
    norm_num
  rwa [hpt] at h

/-! ## C2 — the depth-50 recursion cap never fires -/

/-- On the self-repeating drawing the draw walk emits exactly one primitive
per descended level, for *any* fuel: the `depth > 50` guard never truncates,
because every recursive call passes `depth + 1` into the `color` parameter
and leaves `depth` at its default `0`. -/
theorem drawCyc_len : ∀ (n : Nat) (base ox oy : ℝ) (c : Nat),
    (drawWalk findCyc flAll stepCyc base ox oy c 0 n).length = n := by
  intro n
  induction n with
  | zero => intro base ox oy c; rfl
  | succ f ih =>
    intro base ox oy c
    simp only [drawWalk]
    rw [if_neg (by norm_num)]
    simp [flAll, stepCyc, findCyc, resolveEdge]
    exact ih base _ _ 1

/-- One level of the bounds walk on the self-repeating drawing: union the
line's box and recurse, shifted right by one. -/
theorem boundsCoreCyc_step (f d : Nat) (ox oy : ℝ) (acc : Option Box) :
    boundsCore findCyc flAll stepCyc 0 ox oy d acc (f + 1)
      = boundsCore findCyc flAll stepCyc 0 (1 + ox) oy (d + 1)
          (addBounds acc ⟨ox, oy, 1 + ox, oy⟩) f := by
  have hang : -(0 : ℝ) * Real.pi / 180 = 0 := by norm_num
  simp only [boundsCore, flAll, stepCyc, findCyc, resolveEdge, rotate_translate, primBox,
    hang, Real.cos_zero, Real.sin_zero]
  norm_num

/-- Closed form of the bounds walk on the self-repeating drawing: the box
keeps growing with the fuel — there is no depth at which descent stops. -/
theorem boundsCoreCyc_closed : ∀ (f d : Nat) (ox oy a c : ℝ),
    a ≤ ox → ox ≤ c →
    boundsCore findCyc flAll stepCyc 0 ox oy d (some ⟨a, oy, c, oy⟩) (f + 1)
      = some ⟨a, oy, max c (ox + ((f : ℝ) + 1)), oy⟩ := by
  intro f
  induction f with
  | zero =>
    intro d ox oy a c ha hc
    rw [boundsCoreCyc_step]
    show addBounds (some ⟨a, oy, c, oy⟩) ⟨ox, oy, 1 + ox, oy⟩ = _
    simp [addBounds, mergeBox, min_eq_left ha, Box.mk.injEq]
    rw [add_comm 1 ox]
  | succ g ih =>
    intro d ox oy a c ha hc
    rw [boundsCoreCyc_step]
    have hacc : addBounds (some ⟨a, oy, c, oy⟩) ⟨ox, oy, 1 + ox, oy⟩
        = some ⟨a, oy, max c (1 + ox), oy⟩ := by
      simp [addBounds, mergeBox, min_eq_left ha, min_self, max_self, Box.mk.injEq]
    rw [hacc]
    rw [ih (d + 1) (1 + ox) oy a (max c (1 + ox)) (by linarith) (le_max_right _ _)]
    have hgnn : (0 : ℝ) ≤ (g : ℝ) := Nat.cast_nonneg g
    have h1 : max (max c (1 + ox)) (1 + ox + ((g : ℝ) + 1)) = max c (ox + ((g : ℝ) + 1 + 1)) := by
      rw [max_assoc]
      have h2 : max (1 + ox) (1 + ox + ((g : ℝ) + 1)) = 1 + ox + ((g : ℝ) + 1) := by
        apply max_eq_right
        linarith
      rw [h2]
      have h3 : 1 + ox + ((g : ℝ) + 1) = ox + ((g : ℝ) + 1 + 1) := by ring
      rw [h3]
    simp only [Option.some.injEq, Box.mk.injEq, eq_self_iff_true, true_and, and_true]
    push_cast
    push_cast at h1
    linarith [h1]

/-- C2 (the claim is right, the code is wrong): on the cyclic drawing whose
single step "A" repeats itself, neither walk stops at depth 50.  The draw
walk (`_draw_xml_step_recursive`) carries its `depth > 50` guard, but the
recursive call at `xml_drawing.py`, line 141 passes `depth + 1` as the
*`color`* argument and leaves `depth` at its default `0`, so the guard is
dead: the walk emits exactly `n` primitives for every fuel `n` (a working cap
would plateau at 51 levels).  The bounds walk of
`viewer_canvas_core.compute_step_bounds` threads `depth + 1` but never tests
it: its box keeps growing, reaching max-x `n + 2` at fuel `n + 2`, again with
no plateau.  In Python both recursions run to `RecursionError` on this input
instead of being silently truncated. -/
theorem c2_recursion_cap_dead :
    (∀ (n : Nat) (base ox oy : ℝ) (c : Nat),
        (drawWalk findCyc flAll stepCyc base ox oy c 0 n).length = n)
    ∧ (∀ n : Nat,
        boundsCore findCyc flAll stepCyc 0 (-stepCyc.x) (-stepCyc.y) 0 none (n + 2)
          = some ⟨0, 0, (n : ℝ) + 2, 0⟩) := by
  constructor
  · exact drawCyc_len
  · intro n
    have hx : -stepCyc.x = (0 : ℝ) := by norm_num [stepCyc]
    have hy : -stepCyc.y = (0 : ℝ) := by norm_num [stepCyc]
    rw [hx, hy]
    rw [show n + 2 = (n + 1) + 1 from rfl]
    rw [boundsCoreCyc_step]
    have hacc : addBounds none ⟨(0 : ℝ), 0, 1 + 0, 0⟩ = some ⟨(0 : ℝ), 0, 1 + 0, 0⟩ := rfl
    rw [hacc]
    rw [boundsCoreCyc_closed n (0 + 1) (1 + 0) 0 0 (1 + 0) (by norm_num) le_rfl]
    simp only [Option.some.injEq, Box.mk.injEq, eq_self_iff_true, true_and, and_true]
    have hle : (1 : ℝ) + 0 ≤ 1 + 0 + ((n : ℝ) + 1) := by
      have hnn : (0 : ℝ) ≤ (n : ℝ) := Nat.cast_nonneg n
      linarith
    rw [max_eq_right hle]
    ring


/-- Python float `%` by 360 is invariant under shifting by whole turns. -/
theorem realMod_add_int_mul (a : ℝ) (k : ℤ) :
    realMod (a + 360 * k) 360 = realMod a 360 := by
  unfold realMod
  have h1 : (a + 360 * k) / 360 = a / 360 + k := by
    field_simp
    ring
  rw [h1, Int.floor_add_int]
  push_cast
  ring

/-- Cosine of a degree angle is invariant under adding whole turns. -/
theorem cos_degToRad_add_int (a : ℝ) (k : ℤ) :
    Real.cos (degToRad (a + 360 * k)) = Real.cos (degToRad a) := by
  have h : degToRad (a + 360 * k) = degToRad a + k * (2 * Real.pi) := by
    unfold degToRad
    field_simp
    ring
  rw [h, Real.cos_add_int_mul_two_pi]

/-- Sine of a degree angle is invariant under adding whole turns. -/
theorem sin_degToRad_add_int (a : ℝ) (k : ℤ) :
    Real.sin (degToRad (a + 360 * k)) = Real.sin (degToRad a) := by
  have h : degToRad (a + 360 * k) = degToRad a + k * (2 * Real.pi) := by
    unfold degToRad
    field_simp
    ring
  rw [h, Real.sin_add_int_mul_two_pi]

/-- On `(0, 2π)`, the cosine of an interior point is at most the larger endpoint cosine. -/
theorem cos_le_max_of_between (p z q : ℝ) (hp : 0 < p) (hpz : p ≤ z) (hzq : z ≤ q)
    (hq : q < 2 * Real.pi) : Real.cos z ≤ max (Real.cos p) (Real.cos q) := by
  rcases le_or_lt z Real.pi with hzpi | hzpi
  · exact le_max_of_le_left
      (Real.cos_le_cos_of_nonneg_of_le_pi (le_of_lt hp) hzpi hpz)
  · have h1 : Real.cos z = Real.cos (2 * Real.pi - z) := (Real.cos_two_pi_sub z).symm
    have h2 : Real.cos (2 * Real.pi - z) ≤ Real.cos (2 * Real.pi - q) := by
      apply Real.cos_le_cos_of_nonneg_of_le_pi
      · linarith
      · linarith
      · linarith
    rw [h1]
    rw [← Real.cos_two_pi_sub q] 
    exact le_max_of_le_right h2

/-- `math.radians` is monotone. -/
theorem degToRad_le_degToRad {a b : ℝ} (h : a ≤ b) : degToRad a ≤ degToRad b := by
  unfold degToRad
  have hπ := Real.pi_pos
  nlinarith

/-- `math.radians` is strictly monotone. -/
theorem degToRad_lt_degToRad {a b : ℝ} (h : a < b) : degToRad a < degToRad b := by
  unfold degToRad
  have hπ := Real.pi_pos
  nlinarith

/-- If the 0° cardinal is strictly outside the degree window `[u, u + σ]` (as measured by the `%`-based sweep test), then the cosine over the window is maximised at an endpoint. -/
theorem cos_bound_master (u σ x : ℝ) (hσ0 : 0 ≤ σ) (hx0 : 0 ≤ x)
    (hxσ : x ≤ σ) (hout : σ + 1e-9 < realMod (-u) 360) :
    Real.cos (degToRad (u + x)) ≤ max (Real.cos (degToRad u)) (Real.cos (degToRad (u + σ))) := by
  set t0 := realMod (-u) 360 with ht0
  set k : ℤ := ⌊(-u) / 360⌋ with hk
  have heps : (0 : ℝ) < 1e-9 := by norm_num
  have ht0lt : t0 < 360 := realMod_lt _ _ (by norm_num)
  have ht0pos : 0 < t0 := by linarith
  have hu : u = -t0 - 360 * k := by
    rw [ht0]
    unfold realMod
    rw [← hk]
    ring
  have hneg : ∀ a : ℝ, degToRad (-a) = -(degToRad a) := by
    intro a
    unfold degToRad
    ring
  have e1 : Real.cos (degToRad (u + x)) = Real.cos (degToRad (t0 - x)) := by
    have h : u + x = -(t0 - x) + 360 * (-k : ℤ) := by
      rw [hu]
      push_cast
      ring
    rw [h, cos_degToRad_add_int, hneg, Real.cos_neg]
  have e2 : Real.cos (degToRad u) = Real.cos (degToRad t0) := by
    have h : u = -t0 + 360 * (-k : ℤ) := by
      rw [hu]
      push_cast
      ring
    rw [h, cos_degToRad_add_int, hneg, Real.cos_neg]
  have e3 : Real.cos (degToRad (u + σ)) = Real.cos (degToRad (t0 - σ)) := by
    have h : u + σ = -(t0 - σ) + 360 * (-k : ℤ) := by
      rw [hu]
      push_cast
      ring
    rw [h, cos_degToRad_add_int, hneg, Real.cos_neg]
  rw [e1, e2, e3, max_comm]
  apply cos_le_max_of_between
  · have h : (0 : ℝ) < t0 - σ := by linarith
    have := degToRad_lt_degToRad h
    unfold degToRad at this ⊢
    linarith [this]
  · exact degToRad_le_degToRad (by linarith)
  · exact degToRad_le_degToRad (by linarith)
  · have h : t0 < 360 := ht0lt
    have := degToRad_lt_degToRad h
    have h2π : degToRad 360 = 2 * Real.pi := by
      unfold degToRad
      ring
    rw [h2π] at this
    exact this

/-- Normalising both operands before a `% 360` difference does not change it. -/
theorem realMod_sub_realMod (p q : ℝ) :
    realMod (realMod p 360 - realMod q 360) 360 = realMod (p - q) 360 := by
  have h : realMod p 360 - realMod q 360
      = (p - q) + 360 * ((⌊q / 360⌋ - ⌊p / 360⌋ : ℤ)) := by
    unfold realMod
    push_cast
    ring
  rw [h, realMod_add_int_mul]

/-- Evaluation of `"ccw".lower()`. -/
theorem toLower_ccw : "ccw".toLower = "ccw" := by with_unfolding_all rfl

/-- Evaluation of `"cw".lower()`. -/
theorem toLower_cw : "cw".toLower = "cw" := by with_unfolding_all rfl

/-- `_angle_in_sweep` for a ccw arc, reduced to a single float-`%` comparison. -/
theorem angleInSweep_ccw (c a0 a1 : ℝ) :
    angleInSweep c a0 a1 "ccw" ↔
      realMod (c - a0) 360 ≤ realMod (a1 - a0) 360 + 1e-9 := by
  unfold angleInSweep
  dsimp only
  rw [if_neg (by rw [toLower_ccw]; decide)]
  rw [normalizeDeg_eq, normalizeDeg_eq, normalizeDeg_eq,
    realMod_sub_realMod, realMod_sub_realMod]

/-- `_angle_in_sweep` for a cw arc, reduced to a single float-`%` comparison. -/
theorem angleInSweep_cw (c a0 a1 : ℝ) :
    angleInSweep c a0 a1 "cw" ↔
      realMod (c - a1) 360 ≤ realMod (a0 - a1) 360 + 1e-9 := by
  unfold angleInSweep
  dsimp only
  rw [if_pos toLower_cw]
  rw [normalizeDeg_eq, normalizeDeg_eq, normalizeDeg_eq,
    realMod_sub_realMod, realMod_sub_realMod]

/-- Degree-level cosine shift by a half turn. -/
theorem cos_degToRad_add_180 (w : ℝ) :
    Real.cos (degToRad (w + 180)) = -Real.cos (degToRad w) := by
  have h : degToRad (w + 180) = degToRad w + Real.pi := by
    unfold degToRad
    ring
  rw [h, Real.cos_add_pi]

/-- Degree-level cosine shift by a quarter turn. -/
theorem cos_degToRad_add_90 (w : ℝ) :
    Real.cos (degToRad (w + 90)) = -Real.sin (degToRad w) := by
  have h : degToRad (w + 90) = degToRad w + Real.pi / 2 := by
    unfold degToRad
    ring
  rw [h, Real.cos_add_pi_div_two]

/-- Degree-level cosine shift by a negative quarter turn. -/
theorem cos_degToRad_sub_90 (w : ℝ) :
    Real.cos (degToRad (w - 90)) = Real.sin (degToRad w) := by
  have h : degToRad (w - 90) = degToRad w - Real.pi / 2 := by
    unfold degToRad
    ring
  rw [h, Real.cos_sub_pi_div_two]

/-- When the 0° cardinal fails the sweep test, the cosine over the window is bounded above by the endpoint cosines. -/
theorem cos_sample_upper (u σ x : ℝ) (hσ0 : 0 ≤ σ) (hx0 : 0 ≤ x) (hxσ : x ≤ σ)
    (hout : ¬ (realMod (0 - u) 360 ≤ σ + 1e-9)) :
    Real.cos (degToRad (u + x)) ≤
      max (Real.cos (degToRad u)) (Real.cos (degToRad (u + σ))) := by
  rw [zero_sub] at hout
  exact cos_bound_master u σ x hσ0 hx0 hxσ (lt_of_not_ge hout)

/-- When the 180° cardinal fails the sweep test, the cosine over the window is bounded below by the endpoint cosines. -/
theorem cos_sample_lower (u σ x : ℝ) (hσ0 : 0 ≤ σ) (hx0 : 0 ≤ x) (hxσ : x ≤ σ)
    (hout : ¬ (realMod (180 - u) 360 ≤ σ + 1e-9)) :
    min (Real.cos (degToRad u)) (Real.cos (degToRad (u + σ))) ≤
      Real.cos (degToRad (u + x)) := by
  have hm : σ + 1e-9 < realMod (-(u + 180)) 360 := by
    have h2 := realMod_add_int_mul (-(u + 180)) 1
    push_cast at h2
    have h3 : -(u + 180) + 360 * 1 = 180 - u := by ring
    rw [h3] at h2
    rw [h2] at hout
    exact lt_of_not_ge hout
  have hmaster := cos_bound_master (u + 180) σ x hσ0 hx0 hxσ hm
  have e1 : u + 180 + x = (u + x) + 180 := by ring
  have e2 : u + 180 + σ = (u + σ) + 180 := by ring
  rw [e1, e2, cos_degToRad_add_180, cos_degToRad_add_180, cos_degToRad_add_180] at hmaster
  rcases le_max_iff.mp hmaster with h | h
  · calc min (Real.cos (degToRad u)) (Real.cos (degToRad (u + σ)))
        ≤ Real.cos (degToRad u) := min_le_left _ _
    _ ≤ Real.cos (degToRad (u + x)) := by linarith
  · calc min (Real.cos (degToRad u)) (Real.cos (degToRad (u + σ)))
        ≤ Real.cos (degToRad (u + σ)) := min_le_right _ _
    _ ≤ Real.cos (degToRad (u + x)) := by linarith

/-- When the 270° cardinal fails the sweep test, the sine over the window is bounded below by the endpoint sines. -/
theorem sin_sample_lower (u σ x : ℝ) (hσ0 : 0 ≤ σ) (hx0 : 0 ≤ x) (hxσ : x ≤ σ)
    (hout : ¬ (realMod (270 - u) 360 ≤ σ + 1e-9)) :
    min (Real.sin (degToRad u)) (Real.sin (degToRad (u + σ))) ≤
      Real.sin (degToRad (u + x)) := by
  have hm : σ + 1e-9 < realMod (-(u + 90)) 360 := by
    have h2 := realMod_add_int_mul (-(u + 90)) 1
    push_cast at h2
    have h3 : -(u + 90) + 360 * 1 = 270 - u := by ring
    rw [h3] at h2
    rw [h2] at hout
    exact lt_of_not_ge hout
  have hmaster := cos_bound_master (u + 90) σ x hσ0 hx0 hxσ hm
  have e1 : u + 90 + x = (u + x) + 90 := by ring
  have e2 : u + 90 + σ = (u + σ) + 90 := by ring
  rw [e1, e2, cos_degToRad_add_90, cos_degToRad_add_90, cos_degToRad_add_90] at hmaster
  rcases le_max_iff.mp hmaster with h | h
  · calc min (Real.sin (degToRad u)) (Real.sin (degToRad (u + σ)))
        ≤ Real.sin (degToRad u) := min_le_left _ _
    _ ≤ Real.sin (degToRad (u + x)) := by linarith
  · calc min (Real.sin (degToRad u)) (Real.sin (degToRad (u + σ)))
        ≤ Real.sin (degToRad (u + σ)) := min_le_right _ _
    _ ≤ Real.sin (degToRad (u + x)) := by linarith

/-- When the 90° cardinal fails the sweep test, the sine over the window is bounded above by the endpoint sines. -/
theorem sin_sample_upper (u σ x : ℝ) (hσ0 : 0 ≤ σ) (hx0 : 0 ≤ x) (hxσ : x ≤ σ)
    (hout : ¬ (realMod (90 - u) 360 ≤ σ + 1e-9)) :
    Real.sin (degToRad (u + x)) ≤
      max (Real.sin (degToRad u)) (Real.sin (degToRad (u + σ))) := by
  have hm : σ + 1e-9 < realMod (-(u - 90)) 360 := by
    have h3 : -(u - 90) = 90 - u := by ring
    rw [h3]
    exact lt_of_not_ge hout
  have hmaster := cos_bound_master (u - 90) σ x hσ0 hx0 hxσ hm
  have e1 : u - 90 + x = (u + x) - 90 := by ring
  have e2 : u - 90 + σ = (u + σ) - 90 := by ring
  have e3 : u - 90 = u - 90 := rfl
  rw [e1, e2, cos_degToRad_sub_90, cos_degToRad_sub_90, cos_degToRad_sub_90] at hmaster
  exact hmaster

/-- Core containment: any circle point of the degree window `[u, u + σ]` lies in `arc_bounds`, given the endpoint boxes and the sweep tests of the four cardinals. -/
theorem circle_point_in_arcBounds_core (cx cy r a0 a1 : ℝ) (dir : String)
    (hr : 0 ≤ r) (u σ x : ℝ) (hσ0 : 0 ≤ σ) (hx0 : 0 ≤ x) (hxσ : x ≤ σ)
    (hE1 : inBox (cx + r * Real.cos (degToRad u), cy - r * Real.sin (degToRad u))
      (arcBounds cx cy r a0 a1 dir))
    (hE2 : inBox (cx + r * Real.cos (degToRad (u + σ)),
        cy - r * Real.sin (degToRad (u + σ))) (arcBounds cx cy r a0 a1 dir))
    (hsw : ∀ c : ℝ, c = 0 ∨ c = 90 ∨ c = 180 ∨ c = 270 →
      realMod (c - u) 360 ≤ σ + 1e-9 → angleInSweep c a0 a1 dir) :
    inBox (cx + r * Real.cos (degToRad (u + x)),
      cy - r * Real.sin (degToRad (u + x))) (arcBounds cx cy r a0 a1 dir) := by
  obtain ⟨h1a, h1b, h1c, h1d⟩ := hE1
  obtain ⟨h2a, h2b, h2c, h2d⟩ := hE2
  dsimp only at h1a h1b h1c h1d h2a h2b h2c h2d
  refine ⟨?_, ?_, ?_, ?_⟩
  · -- minx ≤ cx + r cos θ (cardinal 180)
    dsimp only
    by_cases h180 : angleInSweep 180 a0 a1 dir
    · obtain ⟨hm1, _, _, _⟩ := arcBounds_mem cx cy r a0 a1 dir
        (cx + r * Real.cos (degToRad 180), cy - r * Real.sin (degToRad 180))
        (by simp [h180])
      dsimp only at hm1
      have hc : Real.cos (degToRad 180) = -1 := by
        have h : degToRad 180 = Real.pi := by
          unfold degToRad
          ring
        rw [h, Real.cos_pi]
      rw [hc] at hm1
      have hcos : -1 ≤ Real.cos (degToRad (u + x)) := Real.neg_one_le_cos _
      have hmul : r * (-1) ≤ r * Real.cos (degToRad (u + x)) :=
        mul_le_mul_of_nonneg_left hcos hr
      linarith [hm1, hmul]
    · have hlow := cos_sample_lower u σ x hσ0 hx0 hxσ
        (fun hle => h180 (hsw 180 (by norm_num) hle))
      rcases le_total (Real.cos (degToRad u)) (Real.cos (degToRad (u + σ))) with hab | hab
      · rw [min_eq_left hab] at hlow
        have hmul := mul_le_mul_of_nonneg_left hlow hr
        linarith [h1a, hmul]
      · rw [min_eq_right hab] at hlow
        have hmul := mul_le_mul_of_nonneg_left hlow hr
        linarith [h2a, hmul]
  · -- cx + r cos θ ≤ maxx (cardinal 0)
    dsimp only
    by_cases h0 : angleInSweep 0 a0 a1 dir
    · obtain ⟨_, hm2, _, _⟩ := arcBounds_mem cx cy r a0 a1 dir
        (cx + r * Real.cos (degToRad 0), cy - r * Real.sin (degToRad 0))
        (by simp [h0])
      dsimp only at hm2
      have hc : Real.cos (degToRad 0) = 1 := by
        have h : degToRad 0 = 0 := by
          unfold degToRad
          ring
        rw [h, Real.cos_zero]
      rw [hc] at hm2
      have hcos : Real.cos (degToRad (u + x)) ≤ 1 := Real.cos_le_one _
      have hmul : r * Real.cos (degToRad (u + x)) ≤ r * 1 :=
        mul_le_mul_of_nonneg_left hcos hr
      linarith [hm2, hmul]
    · have hup := cos_sample_upper u σ x hσ0 hx0 hxσ
        (fun hle => h0 (hsw 0 (by norm_num) hle))
      rcases le_total (Real.cos (degToRad u)) (Real.cos (degToRad (u + σ))) with hab | hab
      · rw [max_eq_right hab] at hup
        have hmul := mul_le_mul_of_nonneg_left hup hr
        linarith [h2b, hmul]
      · rw [max_eq_left hab] at hup
        have hmul := mul_le_mul_of_nonneg_left hup hr
        linarith [h1b, hmul]
  · -- miny ≤ cy − r sin θ (cardinal 90)
    dsimp only
    by_cases h90 : angleInSweep 90 a0 a1 dir
    · obtain ⟨_, _, hm3, _⟩ := arcBounds_mem cx cy r a0 a1 dir
        (cx + r * Real.cos (degToRad 90), cy - r * Real.sin (degToRad 90))
        (by simp [h90])
      dsimp only at hm3
      have hs : Real.sin (degToRad 90) = 1 := by
        have h : degToRad 90 = Real.pi / 2 := by
          unfold degToRad
          ring
        rw [h, Real.sin_pi_div_two]
      rw [hs] at hm3
      have hsin : Real.sin (degToRad (u + x)) ≤ 1 := Real.sin_le_one _
      have hmul : r * Real.sin (degToRad (u + x)) ≤ r * 1 :=
        mul_le_mul_of_nonneg_left hsin hr
      linarith [hm3, hmul]
    · have hup := sin_sample_upper u σ x hσ0 hx0 hxσ
        (fun hle => h90 (hsw 90 (by norm_num) hle))
      rcases le_total (Real.sin (degToRad u)) (Real.sin (degToRad (u + σ))) with hab | hab
      · rw [max_eq_right hab] at hup
        have hmul := mul_le_mul_of_nonneg_left hup hr
        linarith [h2c, hmul]
      · rw [max_eq_left hab] at hup
        have hmul := mul_le_mul_of_nonneg_left hup hr
        linarith [h1c, hmul]
  · -- cy − r sin θ ≤ maxy (cardinal 270)
    dsimp only
    by_cases h270 : angleInSweep 270 a0 a1 dir
    · obtain ⟨_, _, _, hm4⟩ := arcBounds_mem cx cy r a0 a1 dir
        (cx + r * Real.cos (degToRad 270), cy - r * Real.sin (degToRad 270))
        (by simp [h270])
      dsimp only at hm4
      have hs : Real.sin (degToRad 270) = -1 := by
        have h : degToRad 270 = Real.pi + Real.pi / 2 := by
          unfold degToRad
          ring
        rw [h, Real.sin_add, Real.sin_pi, Real.cos_pi, Real.sin_pi_div_two,
          Real.cos_pi_div_two]
        norm_num
      rw [hs] at hm4
      have hsin : -1 ≤ Real.sin (degToRad (u + x)) := Real.neg_one_le_sin _
      have hmul : r * (-1) ≤ r * Real.sin (degToRad (u + x)) :=
        mul_le_mul_of_nonneg_left hsin hr
      linarith [hm4, hmul]
    · have hlow := sin_sample_lower u σ x hσ0 hx0 hxσ
        (fun hle => h270 (hsw 270 (by norm_num) hle))
      rcases le_total (Real.sin (degToRad u)) (Real.sin (degToRad (u + σ))) with hab | hab
      · rw [min_eq_left hab] at hlow
        have hmul := mul_le_mul_of_nonneg_left hlow hr
        linarith [h1d, hmul]
      · rw [min_eq_right hab] at hlow
        have hmul := mul_le_mul_of_nonneg_left hlow hr
        linarith [h2d, hmul]

/-- Every circle point at parameter `t ∈ [0, 1]` along the arc sweep lies in the `arc_bounds` box, for either direction. -/
theorem circle_sample_in_arcBounds (cx cy r a0 a1 : ℝ) (dir : String)
    (hdir : dir = "ccw" ∨ dir = "cw") (hr : 0 ≤ r) (t : ℝ) (ht0 : 0 ≤ t) (ht1 : t ≤ 1) :
    inBox (cx + r * Real.cos (degToRad (a0 + t * arcDelta a0 a1 dir)),
           cy - r * Real.sin (degToRad (a0 + t * arcDelta a0 a1 dir)))
      (arcBounds cx cy r a0 a1 dir) := by
  rcases hdir with rfl | rfl
  · have hδ : arcDelta a0 a1 "ccw" = realMod (a1 - a0) 360 := by
      unfold arcDelta
      rw [if_pos (by rw [toLower_ccw])]
    set σ := realMod (a1 - a0) 360 with hσ
    have hσ0 : 0 ≤ σ := realMod_nonneg _ _ (by norm_num)
    have hang : a0 + t * arcDelta a0 a1 "ccw" = a0 + t * σ := by rw [hδ]
    rw [hang]
    have hk : a0 + σ = a1 + 360 * ((-⌊(a1 - a0) / 360⌋ : ℤ)) := by
      rw [hσ]
      unfold realMod
      push_cast
      ring
    apply circle_point_in_arcBounds_core cx cy r a0 a1 "ccw" hr a0 σ (t * σ) hσ0
      (mul_nonneg ht0 hσ0) (by nlinarith)
    · apply arcBounds_mem
      simp
    · have hc : Real.cos (degToRad (a0 + σ)) = Real.cos (degToRad a1) := by
        rw [hk, cos_degToRad_add_int]
      have hs : Real.sin (degToRad (a0 + σ)) = Real.sin (degToRad a1) := by
        rw [hk, sin_degToRad_add_int]
      rw [hc, hs]
      apply arcBounds_mem
      simp
    · intro c hc hrel
      rw [angleInSweep_ccw, ← hσ]
      exact hrel
  · have hδ : arcDelta a0 a1 "cw" = -(realMod (a0 - a1) 360) := by
      unfold arcDelta
      rw [if_neg (by rw [toLower_cw]; decide)]
    set σ := realMod (a0 - a1) 360 with hσ
    have hσ0 : 0 ≤ σ := realMod_nonneg _ _ (by norm_num)
    have hang : a0 + t * arcDelta a0 a1 "cw" = (a0 - σ) + (1 - t) * σ := by
      rw [hδ]
      ring
    rw [hang]
    have hk : a0 - σ = a1 + 360 * ((⌊(a0 - a1) / 360⌋ : ℤ)) := by
      rw [hσ]
      unfold realMod
      ring
    apply circle_point_in_arcBounds_core cx cy r a0 a1 "cw" hr (a0 - σ) σ ((1 - t) * σ) hσ0
      (mul_nonneg (by linarith) hσ0) (by nlinarith)
    · have hc : Real.cos (degToRad (a0 - σ)) = Real.cos (degToRad a1) := by
        rw [hk, cos_degToRad_add_int]
      have hs : Real.sin (degToRad (a0 - σ)) = Real.sin (degToRad a1) := by
        rw [hk, sin_degToRad_add_int]
      rw [hc, hs]
      apply arcBounds_mem
      simp
    · have he : a0 - σ + σ = a0 := by ring
      rw [he]
      apply arcBounds_mem
      simp
    · intro c hc hrel
      rw [angleInSweep_cw]
      have h2 : realMod (c - a1) 360 = realMod (c - (a0 - σ)) 360 := by
        have h3 : c - a1 = (c - (a0 - σ)) + 360 * ((⌊(a0 - a1) / 360⌋ : ℤ)) := by
          rw [hσ]
          unfold realMod
          ring
        rw [h3, realMod_add_int_mul]
      rw [h2, ← hσ]
      exact hrel

/-- The polyline segment count is at least 2. -/
theorem arcSegN_ge_two (zoom r delta : ℝ) : 2 ≤ arcSegN zoom r delta := by
  unfold arcSegN
  dsimp only
  split
  · exact le_refl 2
  · omega

/-- A polyline sample angle is the sweep at some parameter `t ∈ [0, 1]`. -/
theorem sample_angle_form (a0 delta : ℝ) (n : ℤ) (hn : 2 ≤ n) (i : ℕ)
    (hi : i < n.toNat + 1) :
    ∃ t : ℝ, 0 ≤ t ∧ t ≤ 1 ∧
      degToRad a0 + i * (degToRad delta / n) = degToRad (a0 + t * delta) := by
  have hn0 : (0 : ℝ) < (n : ℝ) := by exact_mod_cast lt_of_lt_of_le (by norm_num) hn
  refine ⟨i / (n : ℝ), by positivity, ?_, ?_⟩
  · rw [div_le_one hn0]
    have h1 : i ≤ n.toNat := Nat.lt_succ_iff.mp hi
    have h2 : (i : ℝ) ≤ (n.toNat : ℝ) := by exact_mod_cast h1
    have h3 : ((n.toNat : ℝ)) = (n : ℝ) := by
      have h4 := Int.toNat_of_nonneg (show (0 : ℤ) ≤ n by omega)
      exact_mod_cast h4
    linarith [h2, h3.le, h3.ge]
  · unfold degToRad
    field_simp
    ring

/-- Every `arc_polyline_world_points` vertex is a circle point at some sweep parameter `t ∈ [0, 1]`. -/
theorem arcPolyline_mem (zoom cx cy r a0 a1 : ℝ) (dir : String) (v : ℝ × ℝ)
    (hv : v ∈ arcPolylineWorldPoints zoom cx cy r a0 a1 dir) :
    ∃ t : ℝ, 0 ≤ t ∧ t ≤ 1 ∧
      v = (cx + r * Real.cos (degToRad (a0 + t * arcDelta a0 a1 dir)),
           cy - r * Real.sin (degToRad (a0 + t * arcDelta a0 a1 dir))) := by
  unfold arcPolylineWorldPoints at hv
  dsimp only at hv
  rw [List.mem_map] at hv
  obtain ⟨i, hi, rfl⟩ := hv
  rw [List.mem_range] at hi
  obtain ⟨t, ht0, ht1, hteq⟩ := sample_angle_form a0 (arcDelta a0 a1 dir)
    (arcSegN zoom r (arcDelta a0 a1 dir)) (arcSegN_ge_two _ _ _) i hi
  exact ⟨t, ht0, ht1, by rw [hteq]⟩

/-- Every vertex of the drawn arc polyline lies inside the `arc_bounds` box of the same arc. -/
theorem arcVerts_in_arcBounds (zoom cx cy r a0 a1 : ℝ) (dir : String)
    (hdir : dir = "ccw" ∨ dir = "cw") (hr : 0 ≤ r) (v : ℝ × ℝ)
    (hv : v ∈ arcPolylineWorldPoints zoom cx cy r a0 a1 dir) :
    inBox v (arcBounds cx cy r a0 a1 dir) := by
  obtain ⟨t, ht0, ht1, rfl⟩ := arcPolyline_mem zoom cx cy r a0 a1 dir v hv
  exact circle_sample_in_arcBounds cx cy r a0 a1 dir hdir hr t ht0 ht1

/-- `_xml_dir_to_math` only ever returns `"ccw"` or `"cw"`. -/
theorem xmlDirToMath_cases (d : String) :
    xmlDirToMath d = "ccw" ∨ xmlDirToMath d = "cw" := by
  unfold xmlDirToMath
  split
  · exact Or.inl rfl
  · exact Or.inr rfl

/-- Every primitive resolved from an edge is well-formed: line primitives
trivially, arc primitives because the direction comes from `_xml_dir_to_math`
and the radius from a `hypot` or a `max(..., 0)`. -/
theorem resolveEdge_wf (e : Edge) (ang offX offY : ℝ) (p : Prim)
    (hp : p ∈ resolveEdge e ang offX offY) : primWf p := by
  unfold resolveEdge at hp
  by_cases h1 : e.type = "line"
  · rw [if_pos h1] at hp
    dsimp only at hp
    rcases List.mem_singleton.mp hp with rfl
    trivial
  · rw [if_neg h1] at hp
    by_cases h2 : e.type = "arc"
    · rw [if_pos h2] at hp
      dsimp only at hp
      rcases List.mem_singleton.mp hp with rfl
      refine ⟨xmlDirToMath_cases _, ?_⟩
      dsimp only
      split
      · exact le_max_right _ _
      · exact Real.sqrt_nonneg _
    · rw [if_neg h2] at hp
      exact absurd hp (List.not_mem_nil p)

/-- Every primitive the draw walk emits is well-formed, provided every
barcode of the root step and of every step reachable through the lookup has
nonnegative dimensions. -/
theorem drawWalk_wf (find : String → Option Step) (fl : Flags)
    (hfind : ∀ nm s, find nm = some s → stepBarcodesNonneg s) :
    ∀ (fuel : Nat) (st : Step), stepBarcodesNonneg st →
      ∀ (base ox oy : ℝ) (c d : Nat) (p : Prim),
        p ∈ drawWalk find fl st base ox oy c d fuel → primWf p := by
  intro fuel
  induction fuel with
  | zero =>
    intro st hst base ox oy c d p hp
    exact absurd hp (List.not_mem_nil p)
  | succ f ih =>
    intro st hst base ox oy c d p hp
    rw [drawWalk] at hp
    by_cases hd : 50 < d
    · rw [if_pos hd] at hp
      exact absurd hp (List.not_mem_nil p)
    · rw [if_neg hd] at hp
      dsimp only at hp
      rcases List.mem_append.mp hp with hp' | hrpt
      · rcases List.mem_append.mp hp' with hedge | hbc
        · by_cases he : fl.show_xml_edges
          · rw [if_pos he] at hedge
            obtain ⟨e, _, he2⟩ := List.mem_flatMap.mp hedge
            exact resolveEdge_wf e _ _ _ p he2
          · rw [if_neg he] at hedge
            exact absurd hedge (List.not_mem_nil p)
        · by_cases hb : fl.show_xml_barcodes
          · rw [if_pos hb] at hbc
            obtain ⟨ly, hly, hmem⟩ := List.mem_flatMap.mp hbc
            obtain ⟨b, hbmem, rfl⟩ := List.mem_map.mp hmem
            exact hst ly hly b hbmem
          · rw [if_neg hb] at hbc
            exact absurd hbc (List.not_mem_nil p)
      · by_cases hrp : fl.show_xml_repeats
        · rw [if_pos hrp] at hrpt
          obtain ⟨r, _, hr2⟩ := List.mem_flatMap.mp hrpt
          split at hr2
          · exact ih _ (hfind _ _ (by assumption)) _ _ _ _ _ p hr2
          · exact absurd hr2 (List.not_mem_nil p)
        · rw [if_neg hrp] at hrpt
          exact absurd hrpt (List.not_mem_nil p)

/-- Every world-space vertex the draw pass produces for a well-formed
primitive lies inside the box the bounds pass unions for that primitive. -/
theorem primVerts_in_primBox (zoom : ℝ) (p : Prim) (hp : primWf p) (v : ℝ × ℝ)
    (hv : v ∈ primVerts zoom p) : inBox v (primBox p) := by
  cases p with
  | line sx sy ex ey =>
    rcases List.mem_cons.mp hv with rfl | hv'
    · exact ⟨min_le_left _ _, le_max_left _ _, min_le_left _ _, le_max_left _ _⟩
    · rcases List.mem_singleton.mp hv' with rfl
      exact ⟨min_le_right _ _, le_max_right _ _, min_le_right _ _, le_max_right _ _⟩
  | arc sx sy ex ey cx cy r a0 a1 dir =>
    obtain ⟨hdir, hr⟩ := hp
    exact arcVerts_in_arcBounds zoom cx cy r a0 a1 dir hdir hr v hv
  | bc bx bv w h =>
    obtain ⟨hw, hh⟩ := hp
    rcases List.mem_singleton.mp hv with rfl
    refine ⟨le_refl _, ?_, le_refl _, ?_⟩
    · show bx ≤ bx + w
      linarith
    · show bv ≤ bv + h
      linarith

/-- `boxLE` is reflexive. -/
theorem boxLE_refl (b : Box) : boxLE b b :=
  ⟨le_refl _, le_refl _, le_refl _, le_refl _⟩

/-- `boxLE` is transitive. -/
theorem boxLE_trans {a b c : Box} (h1 : boxLE a b) (h2 : boxLE b c) : boxLE a c := by
  obtain ⟨x1, y1, z1, w1⟩ := h1
  obtain ⟨x2, y2, z2, w2⟩ := h2
  exact ⟨le_trans x2 x1, le_trans y2 y1, le_trans z1 z2, le_trans w1 w2⟩

/-- A box is contained in its union with another. -/
theorem boxLE_merge_left (a b : Box) : boxLE a (mergeBox a b) :=
  ⟨min_le_left _ _, min_le_left _ _, le_max_left _ _, le_max_left _ _⟩

/-- A box is contained in another's union with it. -/
theorem boxLE_merge_right (a b : Box) : boxLE b (mergeBox a b) :=
  ⟨min_le_right _ _, min_le_right _ _, le_max_right _ _, le_max_right _ _⟩

/-- A point of a smaller box lies in any larger box. -/
theorem inBox_mono {v : ℝ × ℝ} {a b : Box} (h : inBox v a) (hab : boxLE a b) :
    inBox v b := by
  obtain ⟨h1, h2, h3, h4⟩ := h
  obtain ⟨g1, g2, g3, g4⟩ := hab
  exact ⟨le_trans g1 h1, le_trans h2 g3, le_trans g2 h3, le_trans h4 g4⟩

/-- Folding `add_bounds` never shrinks the accumulator. -/
theorem foldl_addBounds_mono : ∀ (bs : List Box) (A R : Box),
    bs.foldl addBounds (some A) = some R → boxLE A R := by
  intro bs
  induction bs with
  | nil =>
    intro A R h
    injection h with h2
    rw [← h2]
    exact boxLE_refl A
  | cons b bs ih =>
    intro A R h
    rw [List.foldl_cons] at h
    have h1 : addBounds (some A) b = some (mergeBox A b) := rfl
    rw [h1] at h
    exact boxLE_trans (boxLE_merge_left A b) (ih _ _ h)

/-- Every box folded through `add_bounds` is contained in the result. -/
theorem foldl_addBounds_mem : ∀ (bs : List Box) (acc : Option Box) (b R : Box),
    b ∈ bs → bs.foldl addBounds acc = some R → boxLE b R := by
  intro bs
  induction bs with
  | nil =>
    intro acc b R hb _
    exact absurd hb (List.not_mem_nil b)
  | cons b0 bs ih =>
    intro acc b R hb h
    rw [List.foldl_cons] at h
    rcases List.mem_cons.mp hb with rfl | hmem
    · cases acc with
      | none =>
        have h1 : addBounds none b = some b := rfl
        rw [h1] at h
        exact foldl_addBounds_mono bs b R h
      | some a =>
        have h1 : addBounds (some a) b = some (mergeBox a b) := rfl
        rw [h1] at h
        exact boxLE_trans (boxLE_merge_right a b) (foldl_addBounds_mono bs _ R h)
    · exact ih _ b R hmem h

/-- A left fold over a `flatMap` is the nested fold. -/
theorem foldl_flatMap {α β γ : Type} (f : α → List β) (g : γ → β → γ) :
    ∀ (l : List α) (a : γ),
      (l.flatMap f).foldl g a = l.foldl (fun acc x => (f x).foldl g acc) a := by
  intro l
  induction l with
  | nil => intro a; rfl
  | cons x l ih =>
    intro a
    rw [List.flatMap_cons, List.foldl_append, List.foldl_cons, ih]

/-- The primitive list underlying the `fit_step` bounds walk is exactly what
the draw walk resolves, for every fuel, start frame and (unused) color
argument — the structural half of C4. -/
theorem boundsPrims_eq_drawWalk (find : String → Option Step) (fl : Flags) :
    ∀ (fuel : Nat) (st : Step) (base ox oy : ℝ) (c : Nat),
      boundsPrims find fl true st base ox oy fuel
        = drawWalk find fl st base ox oy c 0 fuel := by
  intro fuel
  induction fuel with
  | zero =>
    intro st base ox oy c
    rfl
  | succ f ih =>
    intro st base ox oy c
    rw [boundsPrims, drawWalk, if_neg (show ¬ (50 < 0) by norm_num)]
    dsimp only
    congr 1
    by_cases hrep : fl.show_xml_repeats
    · rw [if_pos (show (true = true) ∧ fl.show_xml_repeats = true from ⟨rfl, hrep⟩),
        if_pos hrep]
      refine congrArg (fun g => List.flatMap st.repeats g) (funext fun r => ?_)
      cases hf : find r.step with
      | none => rfl
      | some sub =>
        dsimp only
        exact ih sub _ _ _ _
    · rw [if_neg (fun hand => hrep hand.2), if_neg hrep]

/-- `primBox` on a barcode primitive. -/
theorem primBox_bc (bx bv w h : ℝ) :
    primBox (Prim.bc bx bv w h) = ⟨bx, bv, bx + w, bv + h⟩ := rfl

/-- A left fold with pointwise-equal fold functions. -/
theorem foldl_fun_congr {α β : Type} (f g : β → α → β) (h : ∀ a x, f a x = g a x) :
    ∀ (l : List α) (a : β), l.foldl f a = l.foldl g a := by
  intro l
  induction l with
  | nil => intro a; rfl
  | cons x l ih =>
    intro a
    rw [List.foldl_cons, List.foldl_cons, h, ih]

/-- The `fit_step` bounds walk is the fold of `add_bounds` over the boxes of
its primitive list — the other structural half of C4. -/
theorem boundsFit_eq_fold (find : String → Option Step) (fl : Flags) :
    ∀ (fuel : Nat) (st : Step) (base ox oy : ℝ) (d : Nat) (acc : Option Box),
      boundsFit find fl true st base ox oy d acc fuel
        = ((boundsPrims find fl true st base ox oy fuel).map primBox).foldl
            addBounds acc := by
  intro fuel
  induction fuel with
  | zero =>
    intro st base ox oy d acc
    rfl
  | succ f ih =>
    intro st base ox oy d acc
    rw [boundsFit, boundsPrims]
    dsimp only
    rcases Bool.eq_false_or_eq_true fl.show_xml_edges with he | he <;>
      rcases Bool.eq_false_or_eq_true fl.show_xml_barcodes with hb | hb <;>
      rcases Bool.eq_false_or_eq_true fl.show_xml_repeats with hrep | hrep <;>
      simp only [he, hb, hrep, eq_self_iff_true, true_and, and_true, and_self, if_true,
        Bool.false_eq_true, false_and, and_false, if_false, List.map_append,
        List.foldl_append, List.foldl_map, foldl_flatMap, primBox_bc, List.map_nil,
        List.foldl_nil] <;>
      try rfl
    all_goals
      refine foldl_fun_congr _ _ (fun a r => ?_) st.repeats _
    all_goals
      cases hf : find r.step with
      | none => rfl
      | some sub =>
        dsimp only
        rw [ih sub _ _ _ _ a, List.foldl_map]

/-- C4 (amended): the draw walk and the `fit_step` bounds walk resolve the
*same* primitive list from the same root frame (base angle 0, offset
`(-step.x, -step.y)`), and the bounds walk is exactly the `add_bounds` fold
over that list's boxes; under the additional hypothesis that every reachable
barcode has nonnegative width and height (which the original claim lacks),
the resulting box contains every world-space vertex the draw pass produces. -/
theorem c4_walks_agree (find : String → Option Step) (fl : Flags) (zoom : ℝ)
    (st : Step) (fuel : Nat) (hbc : allBarcodesNonneg find st) :
    boundsPrims find fl true st 0 (-st.x) (-st.y) fuel
      = drawWalk find fl st 0 (-st.x) (-st.y) 0 0 fuel
    ∧ (∀ (d : Nat) (acc : Option Box),
        boundsFit find fl true st 0 (-st.x) (-st.y) d acc fuel
          = ((boundsPrims find fl true st 0 (-st.x) (-st.y) fuel).map primBox).foldl
              addBounds acc)
    ∧ (∀ B, boundsFit find fl true st 0 (-st.x) (-st.y) 0 none fuel = some B →
        ∀ v ∈ drawVerts find fl zoom st fuel, inBox v B) := by
  refine ⟨boundsPrims_eq_drawWalk find fl fuel st 0 (-st.x) (-st.y) 0,
    fun d acc => boundsFit_eq_fold find fl fuel st 0 (-st.x) (-st.y) d acc, ?_⟩
  intro B hB v hv
  unfold drawVerts at hv
  obtain ⟨p, hp, hvp⟩ := List.mem_flatMap.mp hv
  have hwf : primWf p :=
    drawWalk_wf find fl hbc.2 fuel st hbc.1 0 (-st.x) (-st.y) 0 0 p hp
  have hbox : inBox v (primBox p) := primVerts_in_primBox zoom p hwf v hvp
  have hpp : p ∈ boundsPrims find fl true st 0 (-st.x) (-st.y) fuel := by
    rw [boundsPrims_eq_drawWalk find fl fuel st 0 (-st.x) (-st.y) 0]
    exact hp
  have hmem2 : primBox p
      ∈ (boundsPrims find fl true st 0 (-st.x) (-st.y) fuel).map primBox :=
    List.mem_map_of_mem primBox hpp
  rw [boundsFit_eq_fold find fl fuel st 0 (-st.x) (-st.y) 0 none] at hB
  exact inBox_mono hbox (foldl_addBounds_mem _ _ _ _ hmem2 hB)

/-- Witness for C4 on the one-line drawing: the two walks resolve the same
primitive list. -/
theorem c4_walks_agree_witness :
    boundsPrims findNone flAll true stepOneLine 0 (-stepOneLine.x) (-stepOneLine.y) 1
      = drawWalk findNone flAll stepOneLine 0 (-stepOneLine.x) (-stepOneLine.y) 0 0 1 :=
  (c4_walks_agree findNone flAll 1 stepOneLine 1
    ⟨fun ly hly => absurd hly (by simp [stepOneLine]),
     fun nm s h => Option.noConfusion h⟩).1

/-- Counterexample to C4 as claimed: on a drawing whose single step carries a
barcode of *negative* width, the draw pass emits the anchor vertex (2, 3),
yet the bounds pass returns the box (2, 3, −3, 4), which does not contain
that vertex — the bounds box fails to contain everything drawn. -/
theorem c4_counterexample :
    drawVerts findNone flAll 1 stepNegBc 1 = [((2 : ℝ), 3)]
    ∧ boundsFit findNone flAll true stepNegBc 0 (-stepNegBc.x) (-stepNegBc.y) 0 none 1
        = some ⟨2, 3, -3, 4⟩
    ∧ ¬ inBox ((2 : ℝ), 3) ⟨2, 3, -3, 4⟩ := by
  have hang : -(0 : ℝ) * Real.pi / 180 = 0 := by norm_num
  refine ⟨?_, ?_, ?_⟩
  · norm_num [drawVerts, drawWalk, stepNegBc, findNone, flAll, resolveEdge,
      rotate_translate, primVerts, hang, Real.cos_zero, Real.sin_zero]
  · norm_num [boundsFit, stepNegBc, findNone, flAll, resolveEdge, rotate_translate,
      addBounds, mergeBox, hang, Real.cos_zero, Real.sin_zero, Box.mk.injEq]
  · intro h
    have h2 := h.2.1
    norm_num at h2

end Viewer
